import Mathlib

/-!
Sieve of Eratosthenes (`p010.go`): embedding and verification

The program consists of a producer `make_primes`, which runs the sieve over
`[2, maxprime)` and sends every prime it finds on a channel, and a consumer
`main`, which adds up what it receives until the channel is closed.

Modelling decisions.

* Go's `int` is taken to be 64 bits wide: every arithmetic result is reduced by
  `wrap64`.  The exact (unreduced) value of every arithmetic operation is also
  recorded in a ghost log (`Frame.arith`, `Drain.partials`), so that absence of
  wrap-around can be stated.
* `make([]bool, n)` panics for a negative `n` and for an `n` above the largest
  allocation the runtime accepts on a 64-bit target (`maxAlloc`, `2 ^ 48`
  bytes); otherwise the allocation is assumed to succeed.
* An index expression panics when the index is outside `0 .. len-1`.
* The channel is modelled by the ordered list of operations performed on it
  (`Event.send v`, `Event.close`); the consumer reads that list front to back.
* Loops take a fuel argument; running out of it is reported as
  `Halt.outOfFuel` together with the state at the loop head.
* Printing and timing (`fmt.Println`, `time.Now`, `time.Since`) are left out;
  `main` is the value of `sum` when the first `Println` is reached.
-/

namespace P010

/-! ## Machine integers -/

/-- Reduction of an exact integer to the 64-bit two's-complement range. -/
def wrap64 (x : Int) : Int := (x + 2 ^ 63) % 2 ^ 64 - 2 ^ 63

/-- Package-level variable `maxprime` of the source. -/
def maxprime : Int := 2000000

/-! ## Observable behaviour and ghost state -/

/-- Channel operations performed by the producer. -/
inductive Event where
  | send (v : Int)
  | close
  deriving DecidableEq, Repr

/-- Arithmetic operations of `make_primes`, recorded with their operands. -/
inductive Arith where
  | lenPlusOne (n : Int)
  | twice (i : Int)
  | advance (j i : Int)
  | incr (i : Int)
  deriving DecidableEq, Repr

/-- Exact mathematical value of a recorded operation. -/
def Arith.exact : Arith → Int
  | .lenPlusOne n => n + 1
  | .twice i => i * 2
  | .advance j i => j + i
  | .incr i => i + 1

/-- Reasons for which a run stops before the end of the function. -/
inductive Halt where
  | makesliceLen
  | indexOutOfRange
  | outOfFuel
  deriving DecidableEq, Repr

/-- Local state of `make_primes`: loop variable `i`, the slice `sieve`, the
channel operations so far and the log of arithmetic performed so far. -/
structure Frame where
  i : Int
  sieve : List Bool
  trace : List Event
  arith : List Arith
  deriving DecidableEq, Repr

/-- State in which a run stopped, and why (`none`: it ran to its end). -/
structure Result where
  frame : Frame
  halt : Option Halt
  deriving DecidableEq, Repr

/-! ## The producer -/

/-- Inner loop `for j := i * 2; j < maxprime; j += i { sieve[j] = true }`,
entered with the current value of `j`. -/
def markLoop (maxprime i : Int) : Nat → Int → Frame → Result
  | 0, _, f => ⟨f, some .outOfFuel⟩
  | fuel + 1, j, f =>
    if j < maxprime then
      if 0 ≤ j ∧ j < f.sieve.length then
        markLoop maxprime i fuel (wrap64 (j + i))
          { f with sieve := f.sieve.set j.toNat true,
                   arith := f.arith ++ [.advance j i] }
      else ⟨f, some .indexOutOfRange⟩
    else ⟨f, none⟩

/-- Outer loop `for i := 2; i < maxprime; i++ { if !sieve[i] { ch <- i; ... } }`,
entered at the loop head with the state `f`; `inner` is the fuel given to every
run of the inner loop. -/
def outerLoop (maxprime : Int) (inner : Nat) : Nat → Frame → Result
  | 0, f => ⟨f, some .outOfFuel⟩
  | fuel + 1, f =>
    if f.i < maxprime then
      if 0 ≤ f.i ∧ f.i < f.sieve.length then
        if f.sieve.getD f.i.toNat false = false then
          let r := markLoop maxprime f.i inner (wrap64 (f.i * 2))
            { f with trace := f.trace ++ [.send f.i],
                     arith := f.arith ++ [.twice f.i] }
          match r.halt with
          | none =>
            outerLoop maxprime inner fuel
              { r.frame with i := wrap64 (f.i + 1),
                             arith := r.frame.arith ++ [.incr f.i] }
          | some _ => r
        else
          outerLoop maxprime inner fuel
            { f with i := wrap64 (f.i + 1), arith := f.arith ++ [.incr f.i] }
      else ⟨f, some .indexOutOfRange⟩
    else ⟨f, none⟩

/-- Largest size of an allocation the Go runtime accepts on a 64-bit target
(its constant `maxAlloc`, `1 << 48` bytes).  An element of a `[]bool` takes one
byte, so this is also the largest length with which `make([]bool, n)` does not
panic. -/
def maxAlloc : Int := 2 ^ 48

/-- State of `make_primes` after `sieve := make([]bool, maxprime+1)` and
`i := 2`, when the allocation succeeds. -/
def initFrame (maxprime : Int) : Frame :=
  { i := 2
    sieve := List.replicate (wrap64 (maxprime + 1)).toNat false
    trace := []
    arith := [.lenPlusOne maxprime] }

/-- Function `make_primes`, with the package variable `maxprime` as a
parameter.  The allocation panics when the length is negative or above
`maxAlloc`. -/
def make_primes (fuel : Nat) (maxprime : Int) : Result :=
  if wrap64 (maxprime + 1) < 0 ∨ maxAlloc < wrap64 (maxprime + 1) then
    ⟨{ i := 0, sieve := [], trace := [], arith := [.lenPlusOne maxprime] },
      some .makesliceLen⟩
  else
    let r := outerLoop maxprime fuel fuel (initFrame maxprime)
    match r.halt with
    | none => ⟨{ r.frame with trace := r.frame.trace ++ [.close] }, none⟩
    | some _ => r

/-! ## The variant with the marking started at the square -/

/-- Outer loop of the variant named in the optimisation note of the
specification: as `outerLoop`, except that the inner loop starts at
`j = i * i`, the product being exact (not reduced to 64 bits). -/
def outerLoopSq (maxprime : Int) (inner : Nat) : Nat → Frame → Result
  | 0, f => ⟨f, some .outOfFuel⟩
  | fuel + 1, f =>
    if f.i < maxprime then
      if 0 ≤ f.i ∧ f.i < f.sieve.length then
        if f.sieve.getD f.i.toNat false = false then
          let r := markLoop maxprime f.i inner (f.i * f.i)
            { f with trace := f.trace ++ [.send f.i] }
          match r.halt with
          | none =>
            outerLoopSq maxprime inner fuel
              { r.frame with i := wrap64 (f.i + 1),
                             arith := r.frame.arith ++ [.incr f.i] }
          | some _ => r
        else
          outerLoopSq maxprime inner fuel
            { f with i := wrap64 (f.i + 1), arith := f.arith ++ [.incr f.i] }
      else ⟨f, some .indexOutOfRange⟩
    else ⟨f, none⟩

/-- Variant of `make_primes` whose inner loop starts at `j = i * i`. -/
def make_primes_sq (fuel : Nat) (maxprime : Int) : Result :=
  if wrap64 (maxprime + 1) < 0 ∨ maxAlloc < wrap64 (maxprime + 1) then
    ⟨{ i := 0, sieve := [], trace := [], arith := [.lenPlusOne maxprime] },
      some .makesliceLen⟩
  else
    let r := outerLoopSq maxprime fuel fuel (initFrame maxprime)
    match r.halt with
    | none => ⟨{ r.frame with trace := r.frame.trace ++ [.close] }, none⟩
    | some _ => r

/-! ## The consumer -/

/-- Values sent on the channel, in order. -/
def sends : List Event → List Int
  | [] => []
  | .send v :: es => v :: sends es
  | .close :: es => sends es

/-- Running sum of `main` and the exact value of every `sum += p` computed. -/
structure Drain where
  sum : Int
  partials : List Int
  deriving DecidableEq, Repr

/-- Loop `for p := range pchan { sum += p }` over the operations the producer
performs on the channel: `none` when the channel is never closed. -/
def rangeLoop : List Event → Drain → Option Drain
  | [], _ => none
  | .send p :: es, d =>
    rangeLoop es { sum := wrap64 (d.sum + p), partials := d.partials ++ [d.sum + p] }
  | .close :: _, d => some d

/-- Run of `main` up to the first `Println`: the final state of the consumer
loop, `none` when the producer does not run to its end. -/
def mainRun (fuel : Nat) (maxprime : Int) : Option Drain :=
  let r := make_primes fuel maxprime
  match r.halt with
  | none => rangeLoop r.frame.trace { sum := 0, partials := [] }
  | some _ => none

/-- The sum printed by `main`. -/
def main (fuel : Nat) (maxprime : Int) : Option Int :=
  (mainRun fuel maxprime).map Drain.sum

/-! ## Reference notions used in the statements -/

/-- Primes below `n`, in increasing order. -/
def primesBelow (n : Nat) : List Nat := (List.range n).filter (fun p => decide (Nat.Prime p))

/-- Index `k` is a proper multiple (factor at least 2) of a prime below `n`:
the indices the sieve has marked when the outer loop reaches `n`. -/
def MarkedBy (n k : Nat) : Prop :=
  ∃ p m : Nat, p.Prime ∧ p < n ∧ 2 ≤ m ∧ k = p * m

/-- Entries the arithmetic log can hold in a run with bound `N`. -/
def ArithOk (N : Int) : Arith → Prop
  | .lenPlusOne n => n = N
  | .twice i => 2 ≤ i ∧ i < N ∧ i * 2 < 2 ^ 63
  | .advance j i => 2 ≤ i ∧ i * 2 ≤ j ∧ j < N ∧ j + i < 2 ^ 63
  | .incr i => 2 ≤ i ∧ i < N

/-- Invariant of the outer loop at the loop head with `i = n`. -/
structure Inv (N : Int) (n : Nat) (f : Frame) : Prop where
  i_eq : f.i = n
  len : (f.sieve.length : Int) = N + 1
  marked : ∀ k : Nat, f.sieve.getD k false = true ↔ ((k : Int) < N ∧ MarkedBy n k)
  trace : f.trace = (primesBelow n).map (fun p : Nat => Event.send (p : Int))
  arith : ∀ a ∈ f.arith, ArithOk N a

/-! ## Evaluation of the sum of the primes below a bound

The sum of the primes below two million is evaluated with a few thousand
operations on large numbers used as bit sets: `compMask` is the set of
composite numbers below the bound, and `indexSum` adds up the positions of the
set bits of a number.  Both are proved correct below. -/

/-- Mask with the bits `0, p, 2 p, ..., (k - 1) p` set (for `p ≥ 2`): the
quotient of `2 ^ (p k)` by `2 ^ p - 1`. -/
def geoMask (p k : Nat) : Nat := 2 ^ (p * k) / (2 ^ p - 1)

/-- Bit `i` of `x`, read from the low `i + 1` bits. -/
def lowBit (x i : Nat) : Bool := decide (x % 2 ^ (i + 1) / 2 ^ i = 1)

/-- Sieve on a bit mask, entered with the next candidate `i` and the mask of
the proper multiples of the numbers below `i`: a candidate already in the mask
is skipped, its multiples being there as well. -/
def sieveMask (N : Nat) : Nat → Nat → Nat → Nat
  | 0, _, acc => acc
  | k + 1, i, acc =>
    if lowBit acc i then sieveMask N k (i + 1) acc
    else sieveMask N k (i + 1) (acc ||| (geoMask i (N / i + 1) <<< (2 * i)))

/-- Mask of the proper multiples of 2, ..., `R`. -/
def compMask (N R : Nat) : Nat := sieveMask N (R - 1) 2 0

/-- Value 1 when bit `j` of `x` is set, else 0. -/
def bitVal (x j : Nat) : Nat := if x.testBit j then 1 else 0

/-- The number `2 ^ 64 - 1`. -/
def laneModulus : Nat := 18446744073709551615

/-- One lane of the index sum: the bits of `x` at the positions `64 t + r`,
gathered into base-`2 ^ 64` digits and summed (plain and weighted by `t`) with
one reduction modulo `(2 ^ 64 - 1) ^ 2`. -/
def lane (x MW r : Nat) : Nat :=
  r * ((((x >>> r) &&& MW) % (laneModulus * laneModulus)) % laneModulus) +
    64 * ((((x >>> r) &&& MW) % (laneModulus * laneModulus)) / laneModulus)

/-- Sum of the first `n` lanes. -/
def lanes (x MW : Nat) : Nat → Nat
  | 0 => 0
  | r + 1 => lanes x MW r + lane x MW r

/-- Sum of the positions of the set bits of `x` (below `N`). -/
def indexSum (N x : Nat) : Nat := lanes x (geoMask 64 (N / 64 + 1)) 64

/-- Sum of the primes below `N`, computed with a bit mask of the multiples of
2, ..., `R`. -/
def fastPrimeSum (N R : Nat) : Nat :=
  N * (N - 1) / 2 - 1 - indexSum N (compMask N R % 2 ^ N)

/-! ## Machine arithmetic -/

theorem wrap64_of_inRange {x : Int} (h1 : -2 ^ 63 ≤ x) (h2 : x < 2 ^ 63) : wrap64 x = x := by
  unfold wrap64; omega

theorem wrap64_lower (x : Int) : -2 ^ 63 ≤ wrap64 x := by
  unfold wrap64; omega

theorem wrap64_upper (x : Int) : wrap64 x < 2 ^ 63 := by
  unfold wrap64; omega

/-! ## Reading and writing the slice -/

theorem getD_set_true (l : List Bool) (a k : Nat) (ha : a < l.length) :
    (l.set a true).getD k false = true ↔ (k = a ∨ l.getD k false = true) := by
  rw [List.getD_eq_getElem?_getD, List.getD_eq_getElem?_getD, List.getElem?_set]
  by_cases h : a = k
  · subst h; simp [ha]
  · simp only [h, if_false]
    constructor
    · intro hk; exact Or.inr hk
    · rintro (hk | hk)
      · exact absurd hk.symm h
      · exact hk

theorem getD_replicate_false (n k : Nat) : (List.replicate n false).getD k false = false := by
  rw [List.getD_eq_getElem?_getD, List.getElem?_replicate]
  by_cases h : k < n <;> simp [h]

/-! ## The inner loop -/

theorem markLoop_i (N i : Int) (fuel : Nat) (j : Int) (f : Frame) :
    (markLoop N i fuel j f).frame.i = f.i := by
  induction fuel generalizing j f with
  | zero => rfl
  | succ fuel ih =>
    unfold markLoop
    split_ifs
    · rw [ih]
    · rfl
    · rfl

theorem markLoop_trace (N i : Int) (fuel : Nat) (j : Int) (f : Frame) :
    (markLoop N i fuel j f).frame.trace = f.trace := by
  induction fuel generalizing j f with
  | zero => rfl
  | succ fuel ih =>
    unfold markLoop
    split_ifs
    · rw [ih]
    · rfl
    · rfl

theorem markLoop_length (N i : Int) (fuel : Nat) (j : Int) (f : Frame) :
    (markLoop N i fuel j f).frame.sieve.length = f.sieve.length := by
  induction fuel generalizing j f with
  | zero => rfl
  | succ fuel ih =>
    unfold markLoop
    split_ifs
    · rw [ih]; simp
    · rfl
    · rfl

/-- Effect of the inner loop for a bound in the 64-bit range.  Either `j + i`
wraps around, and the next index expression panics, or the loop runs to its
exit and marks exactly the indices `j, j + i, j + 2 i, ...` below the bound. -/
theorem markLoop_spec (N i : Int) (hN : N < 2 ^ 63) (hi1 : 1 ≤ i) (hi : i < 2 ^ 63)
    (fuel : Nat) (j : Int) (f : Frame) (hj : 0 ≤ j)
    (hlen : (f.sieve.length : Int) = N + 1) (hfuel : N - j < fuel) (hpos : 0 < fuel) :
    ((markLoop N i fuel j f).halt = some .indexOutOfRange ∧ 2 ^ 63 < N + i) ∨
    ((markLoop N i fuel j f).halt = none ∧
    (∀ k : Nat, (markLoop N i fuel j f).frame.sieve.getD k false = true ↔
      (f.sieve.getD k false = true ∨ ((k : Int) < N ∧ ∃ m : Nat, (k : Int) = j + i * m))) ∧
    ∃ extra, (markLoop N i fuel j f).frame.arith = f.arith ++ extra ∧
      ∀ a ∈ extra, ∃ j0 : Int, a = Arith.advance j0 i ∧ j ≤ j0 ∧ j0 < N ∧ j0 + i < 2 ^ 63) := by
  induction fuel generalizing j f with
  | zero => exact absurd hpos (lt_irrefl 0)
  | succ fuel ih =>
    unfold markLoop
    by_cases hjN : j < N
    · have hidx : 0 ≤ j ∧ j < (f.sieve.length : Int) := ⟨hj, by omega⟩
      rw [if_pos hjN, if_pos hidx]
      have hfp : 0 < fuel := by push_cast at hfuel; omega
      by_cases hov : j + i < 2 ^ 63
      · have hw : wrap64 (j + i) = j + i := wrap64_of_inRange (by omega) hov
        rw [hw]
        have hlt : j.toNat < f.sieve.length := by omega
        rcases ih (j + i)
          { f with sieve := f.sieve.set j.toNat true, arith := f.arith ++ [.advance j i] }
          (by omega) (by simpa using hlen) (by push_cast at hfuel ⊢; omega) hfp with
          h | ⟨h1, h2, extra, h3, h4⟩
        · exact Or.inl h
        · refine Or.inr ⟨h1, ?_, ?_⟩
          · intro k
            rw [h2 k]
            simp only [getD_set_true _ _ _ hlt]
            constructor
            · rintro ((hk | hk) | ⟨hkN, m, hm⟩)
              · exact Or.inr ⟨by omega, 0, by simp; omega⟩
              · exact Or.inl hk
              · exact Or.inr ⟨hkN, m + 1, by push_cast; rw [hm]; ring⟩
            · rintro (hk | ⟨hkN, m, hm⟩)
              · exact Or.inl (Or.inr hk)
              · cases m with
                | zero => exact Or.inl (Or.inl (by simp at hm; omega))
                | succ m => exact Or.inr ⟨hkN, m, by push_cast at hm; rw [hm]; ring⟩
          · refine ⟨Arith.advance j i :: extra, ?_, ?_⟩
            · rw [h3]; simp
            · intro a ha
              rcases List.mem_cons.mp ha with rfl | ha
              · exact ⟨j, rfl, le_refl _, hjN, hov⟩
              · obtain ⟨j0, e, h5, h6⟩ := h4 a ha
                exact ⟨j0, e, by omega, h6⟩
      · -- `j + i` wraps to a negative value: the next write panics
        have hneg : wrap64 (j + i) < 0 := by unfold wrap64; omega
        obtain ⟨fuel, rfl⟩ : ∃ g, fuel = g + 1 := ⟨fuel - 1, by omega⟩
        refine Or.inl ⟨?_, by omega⟩
        unfold markLoop
        rw [if_pos (by omega), if_neg (by omega)]
    · rw [if_neg hjN]
      exact Or.inr ⟨rfl, fun k => ⟨fun h => Or.inl h, fun h => h.elim id (fun h => absurd h.1 (by
        rcases h.2 with ⟨m, hm⟩
        have : (0 : Int) ≤ i * m := by positivity
        omega))⟩, [], by simp, by simp⟩

/-! ## Number theory of the marking -/

theorem primesBelow_succ (n : Nat) :
    primesBelow (n + 1) = primesBelow n ++ (if n.Prime then [n] else []) := by
  unfold primesBelow
  rw [List.range_succ, List.filter_append]
  by_cases h : n.Prime <;> simp [h]

theorem mem_primesBelow (n p : Nat) : p ∈ primesBelow n ↔ (p < n ∧ p.Prime) := by
  unfold primesBelow
  simp

theorem markedBy_not_prime {n k : Nat} (h : MarkedBy n k) : ¬ k.Prime := by
  obtain ⟨p, m, hp, _, hm, rfl⟩ := h
  intro hk
  rcases (Nat.prime_mul_iff.mp hk) with ⟨_, h1⟩ | ⟨_, h1⟩
  · omega
  · exact hp.one_lt.ne' h1

theorem markedBy_self_of_not_prime {n : Nat} (hn : 2 ≤ n) (h : ¬ n.Prime) : MarkedBy n n := by
  have hlt : n.minFac < n := (Nat.not_prime_iff_minFac_lt hn).mp h
  have hp : n.minFac.Prime := Nat.minFac_prime (by omega)
  obtain ⟨m, hm⟩ := Nat.minFac_dvd n
  refine ⟨n.minFac, m, hp, hlt, ?_, hm⟩
  by_contra hm2
  have : m = 0 ∨ m = 1 := by omega
  rcases this with rfl | rfl
  · simp at hm; omega
  · simp at hm; omega

theorem markedBy_succ_prime {n : Nat} (hp : n.Prime) (k : Nat) :
    MarkedBy (n + 1) k ↔ (MarkedBy n k ∨ ∃ m : Nat, k = n * 2 + n * m) := by
  constructor
  · rintro ⟨p, m, h1, h2, h3, h4⟩
    by_cases hpn : p = n
    · subst hpn
      exact Or.inr ⟨m - 2, by rw [h4, ← Nat.mul_add]; congr 1; omega⟩
    · exact Or.inl ⟨p, m, h1, by omega, h3, h4⟩
  · rintro (⟨p, m, h1, h2, h3, h4⟩ | ⟨m, hm⟩)
    · exact ⟨p, m, h1, by omega, h3, h4⟩
    · exact ⟨n, 2 + m, hp, by omega, by omega, by rw [hm]; ring⟩

theorem markedBy_succ_composite {n : Nat} (hp : ¬ n.Prime) (k : Nat) :
    MarkedBy (n + 1) k ↔ MarkedBy n k := by
  constructor
  · rintro ⟨p, m, h1, h2, h3, h4⟩
    have hpn : p ≠ n := fun e => hp (e ▸ h1)
    exact ⟨p, m, h1, by omega, h3, h4⟩
  · rintro ⟨p, m, h1, h2, h3, h4⟩
    exact ⟨p, m, h1, by omega, h3, h4⟩

/-- Below the bound, what is marked once the loop variable has passed `k` is
exactly the composite numbers. -/
theorem markedBy_iff_composite {n k : Nat} (hk2 : 2 ≤ k) (hkn : k ≤ n) :
    MarkedBy n k ↔ ¬ k.Prime := by
  constructor
  · exact markedBy_not_prime
  · intro h
    obtain ⟨p, m, h1, h2, h3, h4⟩ := markedBy_self_of_not_prime hk2 h
    exact ⟨p, m, h1, by omega, h3, h4⟩

theorem not_markedBy_small {n k : Nat} (hk : k < 2) : ¬ MarkedBy n k := by
  rintro ⟨p, m, h1, _, h3, h4⟩
  have := h1.two_le
  have : 2 * 2 ≤ p * m := Nat.mul_le_mul this h3
  omega

/-! ## The outer loop -/

theorem inv_init (N : Int) (h1 : -1 ≤ N) (h2 : N + 1 < 2 ^ 63) : Inv N 2 (initFrame N) := by
  have hw : wrap64 (N + 1) = N + 1 := wrap64_of_inRange (by omega) (by omega)
  refine ⟨rfl, ?_, ?_, ?_, ?_⟩
  · simp only [initFrame, List.length_replicate, hw]; omega
  · intro k
    simp only [initFrame, getD_replicate_false]
    constructor
    · intro h; exact absurd h (by simp)
    · rintro ⟨_, p, m, hp, hp2, _⟩
      exact absurd hp.two_le (by omega)
  · simp [initFrame, primesBelow]; decide
  · intro a ha
    simp only [initFrame, List.mem_singleton] at ha
    subst ha
    rfl

/-- One iteration of the outer loop from a state satisfying the invariant:
either the invariant holds again at the next loop head, or an overflow made
an index expression panic (only possible for bounds above `2 ^ 62`). -/
theorem outer_step (N : Int) (hN : N + 1 < 2 ^ 63) (inner : Nat) (hin : N ≤ inner)
    (n : Nat) (hn2 : 2 ≤ n) (hnN : (n : Int) < N) (f : Frame) (h : Inv N n f) :
    (∃ f1, Inv N (n + 1) f1 ∧
      ∀ fuel, outerLoop N inner (fuel + 1) f = outerLoop N inner fuel f1) ∨
    (2 ^ 62 < N ∧
      ∀ fuel, (outerLoop N inner (fuel + 1) f).halt = some .indexOutOfRange) := by
  obtain ⟨fi, sv, tr, ar⟩ := f
  obtain ⟨hi, hlen, hmarked, htrace, harith⟩ := h
  simp only at hi hlen hmarked htrace harith
  subst hi
  have c1 : (n : Int) < N := hnN
  have c2 : 0 ≤ (n : Int) ∧ (n : Int) < (sv.length : Int) := ⟨by omega, by omega⟩
  have hw1 : wrap64 ((n : Int) + 1) = ((n + 1 : Nat) : Int) :=
    (wrap64_of_inRange (by omega) (by omega)).trans (by push_cast; omega)
  have htn : (n : Int).toNat = n := by omega
  by_cases hs : sv.getD n false = false
  · -- the entry is clear: `n` is prime
    have hprime : n.Prime := by
      by_contra hnp
      have := (hmarked n).mpr ⟨hnN, markedBy_self_of_not_prime hn2 hnp⟩
      rw [hs] at this
      exact absurd this (by simp)
    have hip : 0 < inner := by omega
    by_cases hov : (n : Int) * 2 < 2 ^ 63
    · have hw2 : wrap64 ((n : Int) * 2) = n * 2 := wrap64_of_inRange (by omega) hov
      rcases markLoop_spec N n (by omega) (by omega) (by omega) inner
        ((n : Int) * 2)
        { i := n, sieve := sv, trace := tr ++ [.send n], arith := ar ++ [.twice n] }
        (by omega) hlen (by omega) hip with ⟨m0, hbig⟩ | ⟨m1, m2, extra, m3, m4⟩
      · refine Or.inr ⟨by omega, fun fuel => ?_⟩
        conv_lhs => unfold outerLoop
        simp only [if_pos c1, if_pos c2, htn, if_pos hs, hw2, m0]
      · simp only at m2 m3
        refine Or.inl ⟨{ (markLoop N n inner ((n : Int) * 2)
          { i := n, sieve := sv, trace := tr ++ [.send n],
            arith := ar ++ [.twice n] }).frame with
            i := ((n + 1 : Nat) : Int),
            arith := (markLoop N n inner ((n : Int) * 2)
              { i := n, sieve := sv, trace := tr ++ [.send n],
                arith := ar ++ [.twice n] }).frame.arith ++ [.incr n] }, ?_, ?_⟩
        · refine ⟨rfl, ?_, ?_, ?_, ?_⟩
          · simp only [markLoop_length]; exact hlen
          · intro k
            simp only [m2 k, hmarked k, markedBy_succ_prime hprime k]
            constructor
            · rintro (⟨hk, hm⟩ | ⟨hk, m, hm⟩)
              · exact ⟨hk, Or.inl hm⟩
              · exact ⟨hk, Or.inr ⟨m, by exact_mod_cast hm⟩⟩
            · rintro ⟨hk, hm | ⟨m, hm⟩⟩
              · exact Or.inl ⟨hk, hm⟩
              · exact Or.inr ⟨hk, m, by exact_mod_cast hm⟩
          · simp only [markLoop_trace, htrace, primesBelow_succ, if_pos hprime,
              List.map_append, List.map_cons, List.map_nil]
          · intro a ha
            simp only [m3, List.mem_append, List.mem_singleton] at ha
            rcases ha with ((ha | rfl) | ha) | rfl
            · exact harith a ha
            · exact ⟨by omega, c1, hov⟩
            · obtain ⟨j0, rfl, h5, h6, h7⟩ := m4 a ha
              exact ⟨by omega, by omega, h6, h7⟩
            · exact ⟨by omega, c1⟩
        · intro fuel
          conv_lhs => unfold outerLoop
          simp only [if_pos c1, if_pos c2, htn, if_pos hs, hw2, hw1, m1]
    · -- `i * 2` wraps to a negative value: the first write panics
      have hneg : wrap64 ((n : Int) * 2) < 0 := by unfold wrap64; omega
      obtain ⟨inner, rfl⟩ : ∃ g, inner = g + 1 := ⟨inner - 1, by omega⟩
      refine Or.inr ⟨by omega, fun fuel => ?_⟩
      conv_lhs => unfold outerLoop
      simp only [if_pos c1, if_pos c2, htn, if_pos hs]
      unfold markLoop
      rw [if_pos (by omega), if_neg (by omega)]
  · -- the entry is set: `n` is composite
    have hcomp : ¬ n.Prime := by
      have hs1 : sv.getD n false = true := by simpa using hs
      exact markedBy_not_prime ((hmarked n).mp hs1).2
    refine Or.inl
      ⟨{ i := ((n + 1 : Nat) : Int), sieve := sv, trace := tr, arith := ar ++ [.incr n] },
        ?_, ?_⟩
    · refine ⟨rfl, hlen, ?_, ?_, ?_⟩
      · intro k
        simp only [hmarked k, markedBy_succ_composite hcomp k]
      · simp only [htrace, primesBelow_succ, if_neg hcomp, List.append_nil]
      · intro a ha
        simp only [List.mem_append, List.mem_singleton] at ha
        rcases ha with ha | rfl
        · exact harith a ha
        · exact ⟨by omega, c1⟩
    · intro fuel
      conv_lhs => unfold outerLoop
      simp only [if_pos c1, if_pos c2, htn, if_neg hs, hw1]

/-- Every run of the outer loop from a state satisfying the invariant ends in
one of three ways: out of fuel at a loop head where the invariant holds, at the
loop exit with the invariant for `i = N`, or in a panic caused by overflow. -/
theorem outer_run (N : Int) (hN : N + 1 < 2 ^ 63) (inner : Nat) (hin : N ≤ inner)
    (fuel n : Nat) (hn2 : 2 ≤ n) (hnN : (n : Int) ≤ N) (f : Frame) (h : Inv N n f) :
    ((outerLoop N inner fuel f).halt = some .outOfFuel ∧ ((n + fuel : Nat) : Int) ≤ N ∧
        Inv N (n + fuel) (outerLoop N inner fuel f).frame) ∨
    ((outerLoop N inner fuel f).halt = none ∧ N < ((n + fuel : Nat) : Int) ∧
        Inv N N.toNat (outerLoop N inner fuel f).frame) ∨
    ((outerLoop N inner fuel f).halt = some .indexOutOfRange ∧ 2 ^ 62 < N) := by
  induction fuel generalizing n f with
  | zero => exact Or.inl ⟨rfl, by simpa using hnN, h⟩
  | succ fuel ih =>
    by_cases hlt : (n : Int) < N
    · rcases outer_step N hN inner hin n hn2 hlt f h with ⟨f1, h1, e1⟩ | ⟨hbig, e1⟩
      · rw [e1 fuel]
        have e : n + (fuel + 1) = n + 1 + fuel := by omega
        rw [e]
        exact ih (n + 1) (by omega) (by push_cast; omega) f1 h1
      · exact Or.inr (Or.inr ⟨e1 fuel, hbig⟩)
    · have hnn : N.toNat = n := by omega
      refine Or.inr (Or.inl ?_)
      unfold outerLoop
      rw [if_neg (by rw [h.i_eq]; exact hlt)]
      exact ⟨rfl, by push_cast; omega, hnn ▸ h⟩

/-! ## Complete runs of the producer -/

theorem primesBelow_small {n : Nat} (h : n ≤ 2) : primesBelow n = [] := by
  unfold primesBelow
  rw [List.filter_eq_nil_iff]
  intro p hp
  have hp2 : p < 2 := by have := List.mem_range.mp hp; omega
  simp only [decide_eq_true_eq]
  intro hpp
  exact absurd hpp.two_le (by omega)

/-- The allocation succeeds for a bound from `-1` up to `2 ^ 48 - 1`. -/
theorem alloc_ok (N : Int) (h1 : -1 ≤ N) (h2 : N < 2 ^ 48) :
    ¬ (wrap64 (N + 1) < 0 ∨ maxAlloc < wrap64 (N + 1)) := by
  rw [wrap64_of_inRange (by omega) (by omega)]
  unfold maxAlloc
  omega

/-- The allocation panics for every other 64-bit bound. -/
theorem alloc_fail (N : Int) (h1 : -2 ^ 63 ≤ N) (h2 : N < 2 ^ 63) (h : N < -1 ∨ 2 ^ 48 ≤ N) :
    wrap64 (N + 1) < 0 ∨ maxAlloc < wrap64 (N + 1) := by
  unfold wrap64 maxAlloc
  omega

/-- A run of `make_primes` with a bound between `-1` and `2 ^ 48 - 1` and enough
fuel: it runs to its end, has sent the primes below the bound in increasing
order and then closed the channel, and leaves exactly the composite numbers
below the bound marked. -/
theorem make_primes_ok (N : Int) (h1 : -1 ≤ N) (h2 : N < 2 ^ 48) (fuel : Nat)
    (hfuel : N ≤ fuel) (hpos : 0 < fuel) :
    (make_primes fuel N).halt = none ∧
    (make_primes fuel N).frame.trace =
      (primesBelow N.toNat).map (fun p : Nat => Event.send (p : Int)) ++ [.close] ∧
    ((make_primes fuel N).frame.sieve.length : Int) = N + 1 ∧
    (∀ k : Nat, (make_primes fuel N).frame.sieve.getD k false = true ↔
      (2 ≤ k ∧ (k : Int) < N ∧ ¬ k.Prime)) ∧
    (∀ a ∈ (make_primes fuel N).frame.arith, ArithOk N a) := by
  have hw := alloc_ok N h1 h2
  have hinit := inv_init N h1 (by omega)
  unfold make_primes
  rw [if_neg hw]
  by_cases hN2 : 2 ≤ N
  · rcases outer_run N (by omega) fuel hfuel fuel 2 (le_refl 2) hN2 (initFrame N) hinit with
      ⟨_, hle, _⟩ | ⟨hh, _, hinv⟩ | ⟨_, hbig⟩
    · exfalso; push_cast at hle; omega
    · simp only [hh]
      refine ⟨trivial, by rw [hinv.trace], hinv.len, ?_, hinv.arith⟩
      intro k
      rw [hinv.marked k]
      constructor
      · rintro ⟨hk, hm⟩
        refine ⟨?_, hk, markedBy_not_prime hm⟩
        by_contra hk2
        exact not_markedBy_small (by omega) hm
      · rintro ⟨hk2, hk, hp⟩
        exact ⟨hk, (markedBy_iff_composite hk2 (by omega)).mpr hp⟩
    · exfalso; omega
  · obtain ⟨fuel, rfl⟩ : ∃ g, fuel = g + 1 := ⟨fuel - 1, by omega⟩
    have hexit : outerLoop N (fuel + 1) (fuel + 1) (initFrame N) = ⟨initFrame N, none⟩ := by
      unfold outerLoop
      rw [if_neg (by simp only [initFrame]; omega)]
    simp only [hexit]
    refine ⟨trivial, ?_, hinit.len, ?_, hinit.arith⟩
    · rw [hinit.trace, primesBelow_small (le_refl 2), primesBelow_small (by omega)]
    · intro k
      rw [hinit.marked k]
      constructor
      · rintro ⟨hk, hm⟩
        exfalso
        obtain ⟨p, m, hp, _, hm2, e⟩ := hm
        have := hp.two_le
        have : 2 * 2 ≤ p * m := Nat.mul_le_mul this hm2
        omega
      · rintro ⟨hk2, hk, _⟩
        exfalso; omega

/-! ## The consumer -/

theorem sends_append (l1 l2 : List Event) : sends (l1 ++ l2) = sends l1 ++ sends l2 := by
  induction l1 with
  | nil => rfl
  | cons e l ih => cases e <;> simp [sends, ih]

theorem sends_map_send (l : List Nat) :
    sends (l.map (fun p : Nat => Event.send (p : Int))) = l.map (fun p : Nat => (p : Int)) := by
  induction l with
  | nil => rfl
  | cons p l ih => simp [sends, ih]

/-- The consumer loop over a closed stream of natural numbers whose total
stays in range: the sum is exact, and every intermediate sum lies between the
initial and the final one. -/
theorem rangeLoop_sends (l : List Nat) (d : Drain) (h0 : 0 ≤ d.sum)
    (hb : d.sum + (l.sum : Nat) < 2 ^ 63) :
    ∃ extra, rangeLoop (l.map (fun p : Nat => Event.send (p : Int)) ++ [.close]) d =
        some { sum := d.sum + (l.sum : Nat), partials := d.partials ++ extra } ∧
      ∀ x ∈ extra, d.sum ≤ x ∧ x ≤ d.sum + (l.sum : Nat) := by
  induction l generalizing d with
  | nil => exact ⟨[], by simp [rangeLoop], by simp⟩
  | cons p l ih =>
    simp only [List.sum_cons, Nat.cast_add] at hb
    have hw : wrap64 (d.sum + (p : Int)) = d.sum + p := wrap64_of_inRange (by omega) (by omega)
    obtain ⟨extra, e1, e2⟩ := ih
      { sum := wrap64 (d.sum + (p : Int)), partials := d.partials ++ [d.sum + (p : Int)] }
      (by simp only [hw]; omega) (by simp only [hw]; omega)
    simp only [hw] at e1 e2
    refine ⟨(d.sum + (p : Int)) :: extra, ?_, ?_⟩
    · rw [List.map_cons, List.cons_append]
      show rangeLoop (l.map (fun p : Nat => Event.send (p : Int)) ++ [.close])
        { sum := wrap64 (d.sum + (p : Int)), partials := d.partials ++ [d.sum + (p : Int)] } = _
      rw [hw, e1]
      simp only [List.sum_cons, Nat.cast_add, List.append_assoc, List.singleton_append,
        add_assoc]
    · intro x hx
      simp only [List.sum_cons, Nat.cast_add]
      rcases List.mem_cons.mp hx with rfl | hx
      · omega
      · have := e2 x hx
        omega

theorem primesBelow_sum_le (n : Nat) : 2 * (primesBelow n).sum ≤ n * (n - 1) := by
  induction n with
  | zero => simp [primesBelow]
  | succ n ih =>
    rw [primesBelow_succ, List.sum_append]
    have hs : (if n.Prime then [n] else []).sum ≤ n := by
      split_ifs <;> simp
    have : n * (n - 1) + 2 * n = (n + 1) * (n + 1 - 1) := by
      cases n with
      | zero => rfl
      | succ m => simp only [Nat.add_sub_cancel]; ring
    omega

theorem primesBelow_sum_eq (n : Nat) :
    (primesBelow n).sum = ∑ p ∈ (Finset.range n).filter Nat.Prime, p := by
  induction n with
  | zero => simp [primesBelow]
  | succ n ih =>
    rw [primesBelow_succ, List.sum_append, ih, Finset.range_succ, Finset.filter_insert]
    by_cases hp : n.Prime
    · rw [if_pos hp, if_pos hp, Finset.sum_insert (by simp)]
      simp [add_comm]
    · rw [if_neg hp, if_neg hp]
      simp

/-! ## Order of emission -/

/-- The values sent by the outer loop are strictly increasing, for every bound
and every amount of fuel, also when the run ends in a panic. -/
theorem outerLoop_sorted (N : Int) (inner fuel : Nat) (f : Frame) (h1 : f.i < 2 ^ 63)
    (h2 : (sends f.trace).Pairwise (· < ·))
    (h3 : f.i < 0 ∨ ∀ v ∈ sends f.trace, v < f.i) :
    (sends (outerLoop N inner fuel f).frame.trace).Pairwise (· < ·) := by
  induction fuel generalizing f with
  | zero => exact h2
  | succ fuel ih =>
    have hnext : ∀ g : Frame, (∀ v ∈ sends g.trace, v ≤ f.i) → 0 ≤ f.i →
        wrap64 (f.i + 1) < 0 ∨ ∀ v ∈ sends g.trace, v < wrap64 (f.i + 1) := by
      intro g hg h0
      by_cases hov : f.i + 1 < 2 ^ 63
      · right
        rw [wrap64_of_inRange (by omega) hov]
        intro v hv
        have := hg v hv
        omega
      · left
        unfold wrap64; omega
    unfold outerLoop
    by_cases c1 : f.i < N
    · rw [if_pos c1]
      by_cases c2 : 0 ≤ f.i ∧ f.i < (f.sieve.length : Int)
      · rw [if_pos c2]
        have hlt : ∀ v ∈ sends f.trace, v < f.i := by
          rcases h3 with h | h
          · omega
          · exact h
        by_cases hs : f.sieve.getD f.i.toNat false = false
        · rw [if_pos hs]
          have hsend : sends (f.trace ++ [Event.send f.i]) = sends f.trace ++ [f.i] := by
            rw [sends_append]; rfl
          have hp : (sends (f.trace ++ [Event.send f.i])).Pairwise (· < ·) := by
            rw [hsend, List.pairwise_append]
            refine ⟨h2, List.pairwise_singleton _ _, ?_⟩
            intro a ha b hb
            rw [List.mem_singleton] at hb
            subst hb
            exact hlt a ha
          have hle : ∀ v ∈ sends (f.trace ++ [Event.send f.i]), v ≤ f.i := by
            intro v hv
            rw [hsend, List.mem_append, List.mem_singleton] at hv
            rcases hv with hv | rfl
            · exact le_of_lt (hlt v hv)
            · exact le_refl _
          simp only
          split
          · apply ih
            · exact wrap64_upper _
            · simpa only [markLoop_trace] using hp
            · simp only [markLoop_trace]
              exact hnext { f with trace := f.trace ++ [Event.send f.i] } hle c2.1
          · simpa only [markLoop_trace] using hp
        · rw [if_neg hs]
          apply ih
          · exact wrap64_upper _
          · exact h2
          · exact hnext f (fun v hv => le_of_lt (hlt v hv)) c2.1
      · rw [if_neg c2]; exact h2
    · rw [if_neg c1]; exact h2

theorem make_primes_sorted (fuel : Nat) (N : Int) :
    (sends (make_primes fuel N).frame.trace).Pairwise (· < ·) := by
  have h := outerLoop_sorted N fuel fuel (initFrame N) (by simp [initFrame])
    (by simp [initFrame, sends]) (Or.inr (by simp [initFrame, sends]))
  unfold make_primes
  by_cases hw : wrap64 (N + 1) < 0 ∨ maxAlloc < wrap64 (N + 1)
  · rw [if_pos hw]; simp [sends]
  · rw [if_neg hw]
    simp only
    split
    · simp only [sends_append]
      simpa [sends] using h
    · exact h

/-- With the largest 64-bit bound, `maxprime + 1` wraps to a negative length
and the allocation panics before anything is sent. -/
theorem make_primes_maxInt (fuel : Nat) :
    make_primes fuel 9223372036854775807 =
      ⟨{ i := 0, sieve := [], trace := [], arith := [.lenPlusOne 9223372036854775807] },
        some .makesliceLen⟩ := by
  unfold make_primes
  rw [if_pos (Or.inl (by decide))]

/-- A negative length panics in `make`. -/
theorem make_primes_negLen (fuel : Nat) (N : Int) (h1 : -2 ^ 63 ≤ N) (h2 : N < -1) :
    make_primes fuel N =
      ⟨{ i := 0, sieve := [], trace := [], arith := [.lenPlusOne N] }, some .makesliceLen⟩ := by
  unfold make_primes
  rw [if_pos (alloc_fail N h1 (by omega) (Or.inl h2))]

/-- A length above `maxAlloc` panics in `make`. -/
theorem make_primes_tooLarge (fuel : Nat) (N : Int) (h1 : 2 ^ 48 ≤ N) (h2 : N < 2 ^ 63) :
    make_primes fuel N =
      ⟨{ i := 0, sieve := [], trace := [], arith := [.lenPlusOne N] }, some .makesliceLen⟩ := by
  unfold make_primes
  rw [if_pos (alloc_fail N (by omega) h2 (Or.inr h1))]

theorem primesBelow_10 : primesBelow 10 = [2, 3, 5, 7] := by
  simp only [primesBelow, List.range_succ, List.range_zero]
  norm_num [List.filter]

theorem primesBelow_20 : primesBelow 20 = [2, 3, 5, 7, 11, 13, 17, 19] := by
  simp only [primesBelow, List.range_succ, List.range_zero]
  norm_num [List.filter]

theorem primesBelow_3 : primesBelow 3 = [2] := by
  simp only [primesBelow, List.range_succ, List.range_zero]
  norm_num [List.filter]

/-! ## Complete runs of the whole program -/

theorem primesBelow_sum_lt (n : Nat) (h : n ≤ 2 ^ 32) : (primesBelow n).sum < 2 ^ 63 := by
  have h1 := primesBelow_sum_le n
  have h2 : n * (n - 1) ≤ 2 ^ 32 * (2 ^ 32 - 1) := Nat.mul_le_mul h (by omega)
  omega

/-- A run of `main` with a bound between `-1` and `2 ^ 32` and enough fuel:
the consumer loop ends with the exact sum of the primes below the bound, and
every intermediate sum lies between 0 and that total. -/
theorem mainRun_ok (N : Int) (h1 : -1 ≤ N) (h2 : N ≤ 2 ^ 32) (fuel : Nat)
    (hfuel : N ≤ fuel) (hpos : 0 < fuel) :
    ∃ ps : List Int,
      mainRun fuel N = some { sum := ((primesBelow N.toNat).sum : Nat), partials := ps } ∧
      ∀ x ∈ ps, 0 ≤ x ∧ x ≤ ((primesBelow N.toNat).sum : Nat) := by
  obtain ⟨hh, ht, _⟩ := make_primes_ok N h1 (by omega) fuel hfuel hpos
  have hlt := primesBelow_sum_lt N.toNat (by omega)
  obtain ⟨extra, e1, e2⟩ := rangeLoop_sends (primesBelow N.toNat) { sum := 0, partials := [] }
    (le_refl _) (by simp only [zero_add]; exact_mod_cast hlt)
  refine ⟨extra, ?_, ?_⟩
  · unfold mainRun
    simp only [hh, ht, e1, zero_add, List.nil_append]
  · intro x hx
    have := e2 x hx
    simpa using this

theorem main_ok (N : Int) (h1 : -1 ≤ N) (h2 : N ≤ 2 ^ 32) (fuel : Nat)
    (hfuel : N ≤ fuel) (hpos : 0 < fuel) :
    main fuel N = some (((primesBelow N.toNat).sum : Nat) : Int) := by
  obtain ⟨ps, e, _⟩ := mainRun_ok N h1 h2 fuel hfuel hpos
  unfold main
  rw [e]
  rfl

theorem main_none_of_halt (fuel : Nat) (N : Int) (h : (make_primes fuel N).halt ≠ none) :
    main fuel N = none := by
  unfold main mainRun
  cases hh : (make_primes fuel N).halt with
  | none => exact absurd hh h
  | some _ => simp only [hh, Option.map_none']

theorem wrap64_add_wrap (a b : Int) : wrap64 (wrap64 a + b) = wrap64 (a + b) := by
  unfold wrap64; omega

/-- The consumer loop over a closed stream, without any assumption on the size
of the total: the sum is the exact total reduced to 64 bits. -/
theorem rangeLoop_wrap (l : List Nat) (d : Drain) (h1 : -2 ^ 63 ≤ d.sum)
    (h2 : d.sum < 2 ^ 63) :
    ∃ ps, rangeLoop (l.map (fun p : Nat => Event.send (p : Int)) ++ [.close]) d =
      some { sum := wrap64 (d.sum + (l.sum : Nat)), partials := ps } := by
  induction l generalizing d with
  | nil =>
    refine ⟨d.partials, ?_⟩
    simp only [List.map_nil, List.nil_append, rangeLoop, List.sum_nil, Nat.cast_zero, add_zero,
      wrap64_of_inRange h1 h2]
  | cons p l ih =>
    obtain ⟨ps, e⟩ := ih
      { sum := wrap64 (d.sum + (p : Int)), partials := d.partials ++ [d.sum + (p : Int)] }
      (wrap64_lower _) (wrap64_upper _)
    refine ⟨ps, ?_⟩
    rw [List.map_cons, List.cons_append]
    show rangeLoop (l.map (fun p : Nat => Event.send (p : Int)) ++ [.close])
      { sum := wrap64 (d.sum + (p : Int)), partials := d.partials ++ [d.sum + (p : Int)] } = _
    rw [e]
    simp only [wrap64_add_wrap, List.sum_cons, Nat.cast_add, add_assoc]

theorem main_wrap (N : Int) (h1 : -1 ≤ N) (h2 : N < 2 ^ 48) (fuel : Nat)
    (hfuel : N ≤ fuel) (hpos : 0 < fuel) :
    main fuel N = some (wrap64 (((primesBelow N.toNat).sum : Nat) : Int)) := by
  obtain ⟨hh, ht, _⟩ := make_primes_ok N h1 h2 fuel hfuel hpos
  obtain ⟨ps, e⟩ := rangeLoop_wrap (primesBelow N.toNat) { sum := 0, partials := [] }
    (by simp) (by simp)
  unfold main mainRun
  simp only [hh, ht, e, zero_add, Option.map_some']

theorem sends_make_primes (N : Int) (h1 : -1 ≤ N) (h2 : N < 2 ^ 48) (fuel : Nat)
    (hfuel : N ≤ fuel) (hpos : 0 < fuel) :
    sends (make_primes fuel N).frame.trace =
      (primesBelow N.toNat).map (fun p : Nat => (p : Int)) := by
  obtain ⟨_, ht, _⟩ := make_primes_ok N h1 h2 fuel hfuel hpos
  rw [ht, sends_append, sends_map_send]
  simp [sends]

theorem mem_sends_make_primes (N : Int) (h1 : -1 ≤ N) (h2 : N < 2 ^ 48) (fuel : Nat)
    (hfuel : N ≤ fuel) (hpos : 0 < fuel) (v : Int) :
    v ∈ sends (make_primes fuel N).frame.trace ↔ (2 ≤ v ∧ v < N ∧ Nat.Prime v.toNat) := by
  rw [sends_make_primes N h1 h2 fuel hfuel hpos, List.mem_map]
  constructor
  · rintro ⟨p, hp, rfl⟩
    obtain ⟨hlt, hpp⟩ := (mem_primesBelow _ _).mp hp
    have := hpp.two_le
    exact ⟨by omega, by omega, by simpa using hpp⟩
  · rintro ⟨hv2, hvN, hpp⟩
    exact ⟨v.toNat, (mem_primesBelow _ _).mpr ⟨by omega, hpp⟩, by omega⟩

theorem markedBy_self_iff_sqrt {j : Nat} (hj : 2 ≤ j) :
    MarkedBy j j ↔ ∃ p : Nat, p.Prime ∧ p ≤ Nat.sqrt j ∧ p ∣ j := by
  constructor
  · intro h
    have hnp : ¬ j.Prime := markedBy_not_prime h
    refine ⟨j.minFac, Nat.minFac_prime (by omega), ?_, Nat.minFac_dvd j⟩
    rw [Nat.le_sqrt]
    have := Nat.minFac_sq_le_self (by omega) hnp
    rwa [sq] at this
  · rintro ⟨p, hp, hsq, m, hm⟩
    rw [Nat.le_sqrt] at hsq
    have hp2 := hp.two_le
    have hpm : p ≤ m := by
      by_contra hlt
      have : p * m < p * p := Nat.mul_lt_mul_of_pos_left (by omega) (by omega)
      omega
    refine ⟨p, m, hp, ?_, by omega, hm⟩
    have : p * 2 ≤ p * m := Nat.mul_le_mul_left p (by omega)
    omega

/-! ## Correctness of the bit-set evaluation -/

theorem lowBit_eq (x i : Nat) : lowBit x i = x.testBit i := by
  unfold lowBit
  rw [pow_succ, Nat.mod_mul_right_div_self, Nat.testBit_to_div_mod]

/-- The geometric sum behind `geoMask`: a number `G` with
`2 ^ (p k) = (2 ^ p - 1) G + 1` whose set bits are the multiples of `p`
below `p k`. -/
theorem geoMask_aux (p : Nat) (hp : 0 < p) (k : Nat) :
    ∃ G, 2 ^ (p * k) = (2 ^ p - 1) * G + 1 ∧
      ∀ j, G.testBit j = true ↔ (p ∣ j ∧ j < p * k) := by
  induction k with
  | zero =>
    refine ⟨0, by simp, fun j => ?_⟩
    simp
  | succ k ih =>
    obtain ⟨G, hG, hbits⟩ := ih
    have hlt : G < 2 ^ (p * k) := by
      apply Nat.lt_pow_two_of_testBit
      intro i hi
      by_contra h
      have := (hbits i).mp (by simpa using h)
      omega
    refine ⟨2 ^ (p * k) + G, ?_, fun j => ?_⟩
    · have h1 : 1 ≤ 2 ^ p := Nat.one_le_two_pow
      obtain ⟨M, hM⟩ : ∃ M, 2 ^ p = M + 1 := ⟨2 ^ p - 1, by omega⟩
      have hM1 : 2 ^ p - 1 = M := by omega
      rw [hM1] at hG ⊢
      have e : 2 ^ (p * (k + 1)) = 2 ^ p * 2 ^ (p * k) := by
        rw [← pow_add]; congr 1; ring
      rw [e, hM]
      generalize 2 ^ (p * k) = X at hG ⊢
      rw [hG]
      ring
    · rcases Nat.lt_trichotomy j (p * k) with hj | hj | hj
      · rw [Nat.testBit_two_pow_add_gt hj, hbits j]
        constructor
        · rintro ⟨h1, h2⟩; exact ⟨h1, by rw [Nat.mul_succ]; omega⟩
        · rintro ⟨h1, _⟩; exact ⟨h1, hj⟩
      · subst hj
        rw [Nat.testBit_two_pow_add_eq]
        have hf : G.testBit (p * k) = false := by
          by_contra h
          have := (hbits (p * k)).mp (by simpa using h)
          omega
        rw [hf]
        simp only [Bool.not_false, true_iff]
        exact ⟨Dvd.intro k rfl, by rw [Nat.mul_succ]; omega⟩
      · have hbig : 2 ^ (p * k) + G < 2 ^ j := by
          calc 2 ^ (p * k) + G < 2 ^ (p * k) + 2 ^ (p * k) := by omega
            _ = 2 ^ (p * k + 1) := by rw [pow_succ]; ring
            _ ≤ 2 ^ j := Nat.pow_le_pow_right (by omega) (by omega)
        rw [Nat.testBit_lt_two_pow hbig]
        constructor
        · intro h; exact absurd h (by simp)
        · rintro ⟨⟨c, rfl⟩, h2⟩
          exfalso
          rw [Nat.mul_succ] at h2
          have h3 : k < c := Nat.lt_of_mul_lt_mul_left hj
          have h4 : p * (k + 1) ≤ p * c := Nat.mul_le_mul_left p h3
          rw [Nat.mul_succ] at h4
          omega

theorem geoMask_testBit (p k : Nat) (hp : 2 ≤ p) (j : Nat) :
    (geoMask p k).testBit j = true ↔ (p ∣ j ∧ j < p * k) := by
  obtain ⟨G, hG, hbits⟩ := geoMask_aux p (by omega) k
  have h4 : 2 ^ 2 ≤ 2 ^ p := Nat.pow_le_pow_right (by omega) hp
  have hone : 1 / (2 ^ p - 1) = 0 := Nat.div_eq_of_lt (by omega)
  have e : geoMask p k = G := by
    unfold geoMask
    rw [hG, Nat.mul_add_div (by omega), hone, add_zero]
  rw [e, hbits j]

theorem geoMask_below (N p : Nat) (hp : 2 ≤ p) (j : Nat) (hj : j < N) :
    (geoMask p (N / p + 1)).testBit j = true ↔ p ∣ j := by
  rw [geoMask_testBit p _ hp j]
  have h1 : N < p * (N / p + 1) := Nat.lt_mul_div_succ N (by omega)
  exact ⟨fun h => h.1, fun h => ⟨h, by omega⟩⟩

theorem sieveMask_testBit (N : Nat) (k i acc : Nat) (hi : 2 ≤ i)
    (hacc : ∀ j, j < N → (acc.testBit j = true ↔ ∃ d, 2 ≤ d ∧ d < i ∧ d ∣ j ∧ 2 * d ≤ j)) :
    ∀ j, j < N → ((sieveMask N k i acc).testBit j = true ↔
      ∃ d, 2 ≤ d ∧ d < i + k ∧ d ∣ j ∧ 2 * d ≤ j) := by
  induction k generalizing i acc with
  | zero => simpa [sieveMask] using hacc
  | succ k ih =>
    intro j hj
    have e : i + (k + 1) = (i + 1) + k := by omega
    rw [e]
    unfold sieveMask
    rw [lowBit_eq]
    by_cases hb : acc.testBit i = true
    · rw [if_pos hb]
      refine ih (i + 1) acc (by omega) ?_ j hj
      intro j hj
      rw [hacc j hj]
      constructor
      · rintro ⟨d, h1, h2, h3, h4⟩; exact ⟨d, h1, by omega, h3, h4⟩
      · rintro ⟨d, h1, h2, h3, h4⟩
        by_cases hd : d = i
        · subst hd
          obtain ⟨c, c1, c2, c3, c4⟩ := (hacc d (by omega)).mp hb
          exact ⟨c, c1, c2, dvd_trans c3 h3, by omega⟩
        · exact ⟨d, h1, by omega, h3, h4⟩
    · rw [if_neg hb]
      refine ih (i + 1) _ (by omega) ?_ j hj
      intro j hj
      rw [Nat.testBit_lor, Nat.testBit_shiftLeft]
      simp only [Bool.or_eq_true, Bool.and_eq_true, decide_eq_true_eq, hacc j hj]
      constructor
      · rintro (⟨d, h1, h2, h3, h4⟩ | ⟨h1, h2⟩)
        · exact ⟨d, h1, by omega, h3, h4⟩
        · rw [geoMask_below N i hi _ (by omega)] at h2
          refine ⟨i, hi, by omega, ?_, h1⟩
          have e : j = (j - 2 * i) + 2 * i := by omega
          rw [e]
          exact dvd_add h2 (Dvd.intro_left 2 rfl)
      · rintro ⟨d, h1, h2, h3, h4⟩
        by_cases hd : d = i
        · subst hd
          refine Or.inr ⟨h4, ?_⟩
          rw [geoMask_below N d hi _ (by omega)]
          exact Nat.dvd_sub' h3 (Dvd.intro_left 2 rfl)
        · exact Or.inl ⟨d, h1, by omega, h3, h4⟩

theorem compMask_testBit (N R : Nat) (hR : 1 ≤ R) :
    ∀ j, j < N →
      ((compMask N R).testBit j = true ↔ ∃ i, 2 ≤ i ∧ i ≤ R ∧ i ∣ j ∧ 2 * i ≤ j) := by
  intro j hj
  unfold compMask
  rw [sieveMask_testBit N (R - 1) 2 0 (le_refl 2) ?_ j hj]
  · constructor
    · rintro ⟨d, h1, h2, h3, h4⟩; exact ⟨d, h1, by omega, h3, h4⟩
    · rintro ⟨d, h1, h2, h3, h4⟩; exact ⟨d, h1, by omega, h3, h4⟩
  · intro j _
    simp only [Nat.zero_testBit]
    constructor
    · intro h; exact absurd h (by simp)
    · rintro ⟨d, h1, h2, _⟩; omega

/-- Below `(R + 1) ^ 2`, the proper multiples of 2, ..., `R` are the composite
numbers. -/
theorem composite_iff_small_factor (R j : Nat) (hj2 : 2 ≤ j) (hj : j < (R + 1) * (R + 1)) :
    (∃ i, 2 ≤ i ∧ i ≤ R ∧ i ∣ j ∧ 2 * i ≤ j) ↔ ¬ j.Prime := by
  constructor
  · rintro ⟨i, h1, h2, ⟨m, rfl⟩, h4⟩ hp
    rcases (Nat.prime_mul_iff.mp hp) with ⟨_, h⟩ | ⟨_, h⟩
    · subst h; omega
    · omega
  · intro hnp
    have hlt : j.minFac < j := (Nat.not_prime_iff_minFac_lt hj2).mp hnp
    have hp : j.minFac.Prime := Nat.minFac_prime (by omega)
    have hsq := Nat.minFac_sq_le_self (by omega) hnp
    rw [sq] at hsq
    obtain ⟨m, hm⟩ := Nat.minFac_dvd j
    refine ⟨j.minFac, hp.two_le, ?_, Nat.minFac_dvd j, ?_⟩
    · by_contra hgt
      have : (R + 1) * (R + 1) ≤ j.minFac * j.minFac := Nat.mul_le_mul (by omega) (by omega)
      omega
    · have hm2 : 2 ≤ m := by
        by_contra h
        have : m = 0 ∨ m = 1 := by omega
        rcases this with rfl | rfl
        · simp at hm; omega
        · simp at hm; omega
      calc 2 * j.minFac = j.minFac * 2 := by ring
        _ ≤ j.minFac * m := Nat.mul_le_mul_left _ hm2
        _ = j := hm.symm

theorem mod_two_pow_bit0 (w y : Nat) (hw : 0 < w)
    (hbits : ∀ j, y.testBit j = true → w ∣ j) : y % 2 ^ w = bitVal y 0 := by
  apply Nat.eq_of_testBit_eq
  intro i
  rw [Nat.testBit_mod_two_pow]
  unfold bitVal
  by_cases hi : i = 0
  · subst hi
    by_cases hb : y.testBit 0 = true
    · simp [hb, hw]
    · simp [hb]
  · have h1 : y.testBit i = true → ¬ i < w := by
      intro hb hlt
      have := Nat.le_of_dvd (by omega) (hbits i hb)
      omega
    have h2 : (if y.testBit 0 = true then 1 else 0).testBit i = false := by
      split_ifs
      · by_contra h
        exact hi (Nat.testBit_one_eq_true_iff_self_eq_zero.mp (by simpa using h))
      · exact Nat.zero_testBit i
    rw [h2]
    by_cases hb : y.testBit i = true
    · simp [h1 hb]
    · simp [hb]

/-- A number whose set bits are all at multiples of `w` is, modulo
`(2 ^ w - 1) ^ 2`, the number of its set bits plus `2 ^ w - 1` times the sum of
their digit positions. -/
theorem digits_decomp (w M : Nat) (hw : 0 < w) (hM : 2 ^ w = M + 1) (T y : Nat)
    (hy : y < 2 ^ (w * T)) (hbits : ∀ j, y.testBit j = true → w ∣ j) :
    ∃ q, y = (∑ t ∈ Finset.range T, bitVal y (w * t)) +
      M * (∑ t ∈ Finset.range T, t * bitVal y (w * t)) + M * M * q := by
  induction T generalizing y with
  | zero =>
    simp only [mul_zero, pow_zero, Nat.lt_one_iff] at hy
    exact ⟨0, by simp [hy]⟩
  | succ T ih =>
    have hy1 : y / 2 ^ w < 2 ^ (w * T) := by
      apply Nat.div_lt_of_lt_mul
      calc y < 2 ^ (w * (T + 1)) := hy
        _ = 2 ^ w * 2 ^ (w * T) := by rw [← pow_add]; congr 1; ring
    have htb : ∀ j, (y / 2 ^ w).testBit j = y.testBit (w + j) := by
      intro j
      rw [← Nat.shiftRight_eq_div_pow, Nat.testBit_shiftRight]
    have hb1 : ∀ j, (y / 2 ^ w).testBit j = true → w ∣ j := by
      intro j hj
      rw [htb] at hj
      exact (Nat.dvd_add_right (dvd_refl w)).mp (hbits _ hj)
    have hbv : ∀ t, bitVal (y / 2 ^ w) (w * t) = bitVal y (w * (t + 1)) := by
      intro t
      unfold bitVal
      rw [htb]
      congr 2
      ring_nf
    obtain ⟨q, hq⟩ := ih (y / 2 ^ w) hy1 hb1
    have hsplit : y = bitVal y 0 + (M + 1) * (y / 2 ^ w) := by
      rw [← hM, ← mod_two_pow_bit0 w y hw hbits]
      exact (Nat.mod_add_div y (2 ^ w)).symm
    simp only [hbv] at hq
    rw [Finset.sum_range_succ', Finset.sum_range_succ']
    simp only [mul_zero, zero_mul, add_zero, add_mul, one_mul, Finset.sum_add_distrib]
    refine ⟨q + (∑ t ∈ Finset.range T, t * bitVal y (w * (t + 1))) + M * q, ?_⟩
    generalize (∑ t ∈ Finset.range T, bitVal y (w * (t + 1))) = c at hq ⊢
    generalize (∑ t ∈ Finset.range T, t * bitVal y (w * (t + 1))) = s at hq ⊢
    generalize y / 2 ^ w = y1 at hq hsplit
    generalize bitVal y 0 = b0 at hsplit
    rw [hsplit, hq]
    ring

theorem bitVal_le_one (x j : Nat) : bitVal x j ≤ 1 := by
  unfold bitVal; split_ifs <;> omega

theorem sum_bitVal_le (f : Nat → Nat) (x T : Nat) :
    (∑ t ∈ Finset.range T, bitVal x (f t)) ≤ T := by
  calc (∑ t ∈ Finset.range T, bitVal x (f t)) ≤ ∑ _t ∈ Finset.range T, 1 :=
        Finset.sum_le_sum (fun t _ => bitVal_le_one x (f t))
    _ = T := by simp

theorem sum_weighted_bitVal_le (f : Nat → Nat) (x T : Nat) :
    (∑ t ∈ Finset.range T, t * bitVal x (f t)) ≤ T * T := by
  calc (∑ t ∈ Finset.range T, t * bitVal x (f t)) ≤ ∑ _t ∈ Finset.range T, T := by
        apply Finset.sum_le_sum
        intro t ht
        have h1 := bitVal_le_one x (f t)
        have h2 : t ≤ T := le_of_lt (Finset.mem_range.mp ht)
        calc t * bitVal x (f t) ≤ T * 1 := Nat.mul_le_mul h2 h1
          _ = T := mul_one T
    _ = T * T := by simp

theorem laneModulus_succ : 2 ^ 64 = laneModulus + 1 := by
  unfold laneModulus; norm_num

theorem lane_eq (x MW r N T : Nat) (hx : x < 2 ^ N)
    (hMW : ∀ j, j < N → (MW.testBit j = true ↔ 64 ∣ j)) (hT : N ≤ 64 * T)
    (hT1 : T < laneModulus) (hT2 : T * T < laneModulus) :
    lane x MW r = ∑ t ∈ Finset.range T, (64 * t + r) * bitVal x (64 * t + r) := by
  have hxbit : ∀ j, x.testBit j = true → j < N := by
    intro j hj
    by_contra hge
    have : x < 2 ^ j := lt_of_lt_of_le hx (Nat.pow_le_pow_right (by omega) (by omega))
    rw [Nat.testBit_lt_two_pow this] at hj
    exact absurd hj (by simp)
  have hybit : ∀ j, ((x >>> r) &&& MW).testBit j = (x.testBit (r + j) && MW.testBit j) := by
    intro j
    rw [Nat.testBit_land, Nat.testBit_shiftRight]
  have hbits : ∀ j, ((x >>> r) &&& MW).testBit j = true → 64 ∣ j := by
    intro j hj
    rw [hybit, Bool.and_eq_true] at hj
    have := hxbit _ hj.1
    exact (hMW j (by omega)).mp hj.2
  have hy : (x >>> r) &&& MW < 2 ^ (64 * T) := by
    calc (x >>> r) &&& MW ≤ x >>> r := Nat.and_le_left
      _ = x / 2 ^ r := Nat.shiftRight_eq_div_pow x r
      _ ≤ x := Nat.div_le_self _ _
      _ < 2 ^ N := hx
      _ ≤ 2 ^ (64 * T) := Nat.pow_le_pow_right (by omega) hT
  have hbv : ∀ t, bitVal ((x >>> r) &&& MW) (64 * t) = bitVal x (64 * t + r) := by
    intro t
    unfold bitVal
    rw [hybit, add_comm r]
    by_cases hb : x.testBit (64 * t + r) = true
    · have := hxbit _ hb
      have hm : MW.testBit (64 * t) = true := (hMW _ (by omega)).mpr (Dvd.intro _ rfl)
      simp [hb, hm]
    · simp [hb]
  obtain ⟨q, hq⟩ := digits_decomp 64 laneModulus (by omega) laneModulus_succ T _ hy hbits
  simp only [hbv] at hq
  have hc := sum_bitVal_le (fun t => 64 * t + r) x T
  have hs := sum_weighted_bitVal_le (fun t => 64 * t + r) x T
  simp only at hc hs
  have hsum : (∑ t ∈ Finset.range T, (64 * t + r) * bitVal x (64 * t + r)) =
      r * (∑ t ∈ Finset.range T, bitVal x (64 * t + r)) +
        64 * (∑ t ∈ Finset.range T, t * bitVal x (64 * t + r)) := by
    simp only [add_mul, Finset.sum_add_distrib, Finset.mul_sum, mul_assoc]
    ring
  rw [hsum]
  unfold lane
  generalize (∑ t ∈ Finset.range T, bitVal x (64 * t + r)) = c at hq hc ⊢
  generalize (∑ t ∈ Finset.range T, t * bitVal x (64 * t + r)) = s at hq hs ⊢
  generalize laneModulus = M at hq hT1 hT2 ⊢
  have hMpos : 0 < M := by omega
  have hcM : c < M := by omega
  have hlt : c + M * s < M * M := by
    obtain ⟨k, rfl⟩ : ∃ k, M = k + 1 := ⟨M - 1, by omega⟩
    have hsk : s ≤ k := by omega
    have : (k + 1) * s ≤ (k + 1) * k := Nat.mul_le_mul_left _ hsk
    have e : (k + 1) * (k + 1) = (k + 1) * k + (k + 1) := by ring
    omega
  have key : ((x >>> r) &&& MW) % (M * M) = c + M * s := by
    rw [hq, Nat.add_mul_mod_self_left, Nat.mod_eq_of_lt hlt]
  rw [key, Nat.add_mul_mod_self_left, Nat.mod_eq_of_lt hcM, Nat.add_mul_div_left _ _ hMpos,
    Nat.div_eq_of_lt hcM, zero_add]

theorem lanes_eq (x MW n : Nat) :
    lanes x MW n = ∑ r ∈ Finset.range n, lane x MW r := by
  induction n with
  | zero => rfl
  | succ n ih => rw [lanes, ih, Finset.sum_range_succ]

theorem sum_range_mul (f : Nat → Nat) (w T : Nat) :
    (∑ j ∈ Finset.range (w * T), f j) =
      ∑ t ∈ Finset.range T, ∑ r ∈ Finset.range w, f (w * t + r) := by
  induction T with
  | zero => simp
  | succ T ih => rw [Nat.mul_succ, Finset.sum_range_add, ih, Finset.sum_range_succ]

/-- The lanes add up to the sum of the positions of the set bits. -/
theorem indexSum_eq (N x : Nat) (hx : x < 2 ^ N)
    (hT1 : N / 64 + 1 < laneModulus) (hT2 : (N / 64 + 1) * (N / 64 + 1) < laneModulus) :
    indexSum N x = ∑ j ∈ Finset.range N, j * bitVal x j := by
  have hT : N ≤ 64 * (N / 64 + 1) := by omega
  unfold indexSum
  rw [lanes_eq]
  have hl : ∀ r, lane x (geoMask 64 (N / 64 + 1)) r =
      ∑ t ∈ Finset.range (N / 64 + 1), (64 * t + r) * bitVal x (64 * t + r) :=
    fun r => lane_eq x _ r N (N / 64 + 1) hx (geoMask_below N 64 (by omega)) hT hT1 hT2
  simp only [hl]
  rw [Finset.sum_comm, ← sum_range_mul (fun j => j * bitVal x j) 64 (N / 64 + 1)]
  obtain ⟨k, hk⟩ : ∃ k, 64 * (N / 64 + 1) = N + k := ⟨64 * (N / 64 + 1) - N, by omega⟩
  rw [hk, Finset.sum_range_add]
  have hz : ∑ i ∈ Finset.range k, (N + i) * bitVal x (N + i) = 0 := by
    apply Finset.sum_eq_zero
    intro i _
    have : x < 2 ^ (N + i) := lt_of_lt_of_le hx (Nat.pow_le_pow_right (by omega) (by omega))
    simp [bitVal, Nat.testBit_lt_two_pow this]
  rw [hz, add_zero]

theorem primesBelow_sum_ite (n : Nat) :
    (primesBelow n).sum = ∑ j ∈ Finset.range n, if j.Prime then j else 0 := by
  induction n with
  | zero => simp [primesBelow]
  | succ n ih =>
    rw [primesBelow_succ, List.sum_append, ih, Finset.sum_range_succ]
    by_cases hp : n.Prime <;> simp [hp]

/-- The bit-mask computation yields the sum of the primes below `N`. -/
theorem fastPrimeSum_eq (N R : Nat) (hN2 : 2 ≤ N) (hR1 : 1 ≤ R)
    (hR : N ≤ (R + 1) * (R + 1)) (hT1 : N / 64 + 1 < laneModulus)
    (hT2 : (N / 64 + 1) * (N / 64 + 1) < laneModulus) :
    fastPrimeSum N R = (primesBelow N).sum := by
  have hx : compMask N R % 2 ^ N < 2 ^ N := Nat.mod_lt _ (by positivity)
  have hbit : ∀ j, j < N → bitVal (compMask N R % 2 ^ N) j =
      if 2 ≤ j ∧ ¬ j.Prime then 1 else 0 := by
    intro j hj
    unfold bitVal
    rw [Nat.testBit_mod_two_pow]
    simp only [hj, decide_True, Bool.true_and]
    by_cases h2 : 2 ≤ j
    · have := (compMask_testBit N R hR1 j hj).trans
        (composite_iff_small_factor R j h2 (by omega))
      by_cases hp : j.Prime
      · have hf : ¬ (compMask N R).testBit j = true := fun h => (this.mp h) hp
        simp [hf, hp]
      · have ht : (compMask N R).testBit j = true := this.mpr hp
        simp [ht, hp, h2]
    · have hf : ¬ (compMask N R).testBit j = true := by
        intro h
        obtain ⟨i, h1, _, _, h4⟩ := (compMask_testBit N R hR1 j hj).mp h
        omega
      simp [hf, h2]
  have hpoint : ∀ j ∈ Finset.range N, j =
      (if j.Prime then j else 0) + j * bitVal (compMask N R % 2 ^ N) j +
        (if j = 1 then 1 else 0) := by
    intro j hj
    rw [hbit j (Finset.mem_range.mp hj)]
    by_cases h2 : 2 ≤ j
    · by_cases hp : j.Prime
      · simp [hp]; omega
      · simp [hp, h2]; omega
    · have hnp : ¬ j.Prime := fun hp => h2 hp.two_le
      have : j = 0 ∨ j = 1 := by omega
      rcases this with rfl | rfl <;> simp [hnp]
  have hsum := Finset.sum_congr rfl hpoint
  rw [Finset.sum_add_distrib, Finset.sum_add_distrib, Finset.sum_range_id,
    Finset.sum_ite_eq' (Finset.range N) 1 (fun _ => 1),
    if_pos (Finset.mem_range.mpr (by omega)), ← primesBelow_sum_ite,
    ← indexSum_eq N _ hx hT1 hT2] at hsum
  unfold fastPrimeSum
  omega

set_option maxRecDepth 1000000 in
theorem fastPrimeSum_two_million : fastPrimeSum 2000000 1414 = 142913828922 := by
  decide!

theorem primesBelow_sum_two_million : (primesBelow 2000000).sum = 142913828922 := by
  rw [← fastPrimeSum_eq 2000000 1414 (by norm_num) (by norm_num) (by norm_num)
    (by norm_num [laneModulus]) (by norm_num [laneModulus])]
  exact fastPrimeSum_two_million

/-! ## Sums that leave the 64-bit range -/

theorem centralBinom_le_pow_primeCount (n : Nat) (hn : 0 < n) :
    Nat.centralBinom n ≤ (2 * n) ^ ((Finset.range (2 * n + 1)).filter Nat.Prime).card := by
  have h1 : ∏ p ∈ Finset.range (2 * n + 1), p ^ (Nat.centralBinom n).factorization p ≤
      ∏ p ∈ Finset.range (2 * n + 1), (if p.Prime then 2 * n else 1) := by
    apply Finset.prod_le_prod
    · intro p _; exact Nat.zero_le _
    · intro p _
      by_cases hp : p.Prime
      · rw [if_pos hp]
        exact Nat.pow_factorization_choose_le (by omega)
      · rw [if_neg hp, Nat.factorization_eq_zero_of_non_prime _ hp, pow_zero]
  rw [Nat.prod_pow_factorization_centralBinom] at h1
  rw [Finset.prod_ite, Finset.prod_const_one, mul_one, Finset.prod_const] at h1
  exact h1

/-- Lower bound of Chebyshev type on the number of primes up to a power of 2. -/
theorem primeCount_two_pow (k : Nat) :
    2 ^ (k + 1) ≤ (k + 1) * (((Finset.range (2 ^ (k + 1) + 1)).filter Nat.Prime).card + 1) := by
  have hn : 0 < 2 ^ k := Nat.pos_pow_of_pos k (by norm_num)
  have h1 := Nat.four_pow_le_two_mul_self_mul_centralBinom (2 ^ k) hn
  have h2 := centralBinom_le_pow_primeCount (2 ^ k) hn
  have e : 2 * 2 ^ k = 2 ^ (k + 1) := by rw [pow_succ]; ring
  rw [e] at h1 h2
  have h3 : 4 ^ 2 ^ k ≤ (2 ^ (k + 1)) ^
      (((Finset.range (2 ^ (k + 1) + 1)).filter Nat.Prime).card + 1) := by
    rw [pow_succ _ (Finset.card _), mul_comm]
    exact h1.trans (Nat.mul_le_mul_left _ h2)
  have e4 : 4 ^ 2 ^ k = 2 ^ 2 ^ (k + 1) := by
    rw [show (4 : Nat) = 2 ^ 2 by norm_num, ← pow_mul, pow_succ 2 k, mul_comm]
  rw [e4, ← pow_mul] at h3
  exact (Nat.pow_le_pow_iff_right (by norm_num)).mp h3

/-- The elements of a set of numbers that are at least `M` add up to at least
`M` times their number, and fewer than `M` elements are below `M`. -/
theorem sum_ge_of_card (s : Finset Nat) (M : Nat) : M * (s.card - M) ≤ ∑ p ∈ s, p := by
  have h1 : (s.filter (fun p => M ≤ p)).card * M ≤ ∑ p ∈ s.filter (fun p => M ≤ p), p := by
    have := Finset.card_nsmul_le_sum (s.filter (fun p => M ≤ p)) (fun p => p) M
      (fun p hp => (Finset.mem_filter.mp hp).2)
    simpa using this
  have h2 : ∑ p ∈ s.filter (fun p => M ≤ p), p ≤ ∑ p ∈ s, p :=
    Finset.sum_le_sum_of_subset (Finset.filter_subset _ _)
  have h3 : s.card ≤ (s.filter (fun p => M ≤ p)).card + M := by
    have hsub : s ⊆ s.filter (fun p => M ≤ p) ∪ Finset.range M := by
      intro p hp
      by_cases h : M ≤ p
      · exact Finset.mem_union_left _ (Finset.mem_filter.mpr ⟨hp, h⟩)
      · exact Finset.mem_union_right _ (Finset.mem_range.mpr (by omega))
    calc s.card ≤ (s.filter (fun p => M ≤ p) ∪ Finset.range M).card := Finset.card_le_card hsub
      _ ≤ (s.filter (fun p => M ≤ p)).card + (Finset.range M).card := Finset.card_union_le _ _
      _ = (s.filter (fun p => M ≤ p)).card + M := by rw [Finset.card_range]
  calc M * (s.card - M) ≤ M * (s.filter (fun p => M ≤ p)).card :=
        Nat.mul_le_mul_left _ (by omega)
    _ = (s.filter (fun p => M ≤ p)).card * M := mul_comm _ _
    _ ≤ _ := h1.trans h2

/-- The primes below `2 ^ 38 + 1` add up to at least `2 ^ 63`. -/
theorem prime_sum_large :
    2 ^ 63 ≤ ∑ p ∈ (Finset.range 274877906945).filter Nat.Prime, p := by
  have h1 := primeCount_two_pow 37
  have e : 2 ^ (37 + 1) + 1 = 274877906945 := by norm_num
  rw [e] at h1
  have h2 := sum_ge_of_card ((Finset.range 274877906945).filter Nat.Prime) 3616814565
  generalize ((Finset.range 274877906945).filter Nat.Prime).card = c at h1 h2
  generalize ∑ p ∈ (Finset.range 274877906945).filter Nat.Prime, p = S at h2 ⊢
  have hc : 7233629130 ≤ c := by omega
  have h3 : 3616814565 * 3616814565 ≤ 3616814565 * (c - 3616814565) :=
    Nat.mul_le_mul_left _ (by omega)
  generalize 3616814565 * (c - 3616814565) = t at h2 h3
  omega

theorem primesBelow_sum_large : 2 ^ 63 ≤ (primesBelow 274877906945).sum := by
  rw [primesBelow_sum_eq]
  exact prime_sum_large

/-- The running sum of the consumer never exceeds the 64-bit range. -/
theorem rangeLoop_lt (l : List Event) (d d1 : Drain) (h : d.sum < 2 ^ 63)
    (e : rangeLoop l d = some d1) : d1.sum < 2 ^ 63 := by
  induction l generalizing d with
  | nil => simp [rangeLoop] at e
  | cons ev l ih =>
    cases ev with
    | send p =>
      simp only [rangeLoop] at e
      exact ih _ (wrap64_upper _) e
    | close =>
      simp only [rangeLoop, Option.some.injEq] at e
      rw [← e]; exact h

theorem main_lt (fuel : Nat) (N s : Int) (h : main fuel N = some s) : s < 2 ^ 63 := by
  unfold main mainRun at h
  cases hh : (make_primes fuel N).halt with
  | some _ => simp [hh] at h
  | none =>
    simp only [hh] at h
    cases hr : rangeLoop (make_primes fuel N).frame.trace { sum := 0, partials := [] } with
    | none => simp [hr] at h
    | some d =>
      simp only [hr, Option.map_some', Option.some.injEq] at h
      rw [← h]
      exact rangeLoop_lt _ _ _ (by norm_num) hr

/-- When the sum of the primes below the bound is below `2 ^ 63`, `main`
computes it exactly. -/
theorem main_exact (N : Int) (h1 : -1 ≤ N) (h2 : N < 2 ^ 48) (fuel : Nat)
    (hfuel : N ≤ fuel) (hpos : 0 < fuel) (hs : (primesBelow N.toNat).sum < 2 ^ 63) :
    main fuel N = some (((primesBelow N.toNat).sum : Nat) : Int) := by
  rw [main_wrap N h1 h2 fuel hfuel hpos, wrap64_of_inRange (by omega) (by exact_mod_cast hs)]

/-! ## The claims -/

/-- C1, as stated, fails at the largest 64-bit bound, and already at the bound
`2 ^ 48`: 2 is a prime below it, yet no run of `make_primes` sends 2 (the
allocation panics). -/
theorem C1_counterexample :
    ((2 : Int) < 9223372036854775807 ∧ Nat.Prime 2 ∧
      ¬ ∃ fuel : Nat,
        (2 : Int) ∈ sends (make_primes fuel 9223372036854775807).frame.trace) ∧
    ((2 : Int) < 281474976710656 ∧
      ¬ ∃ fuel : Nat, (2 : Int) ∈ sends (make_primes fuel 281474976710656).frame.trace) := by
  refine ⟨⟨by decide, Nat.prime_two, ?_⟩, by decide, ?_⟩
  · rintro ⟨fuel, h⟩
    rw [make_primes_maxInt] at h
    simp [sends] at h
  · rintro ⟨fuel, h⟩
    rw [make_primes_tooLarge fuel _ (by norm_num) (by norm_num)] at h
    simp [sends] at h

/-- C1 (amended): for every bound `N` with `2 ≤ N < 2 ^ 48`, the run of
`make_primes` with enough fuel reaches its end and the set of values it sends
is exactly the set of primes `p` with `2 ≤ p < N`: no prime below `N` is
omitted, no composite is sent, neither 0 nor 1 is sent, and `N` itself is
never sent. -/
theorem C1_emits_exactly_primes (N : Int) (fuel : Nat) (h2 : 2 ≤ N) (hN : N < 2 ^ 48)
    (hfuel : N ≤ fuel) :
    (make_primes fuel N).halt = none ∧
    (∀ v : Int, v ∈ sends (make_primes fuel N).frame.trace ↔
      (2 ≤ v ∧ v < N ∧ Nat.Prime v.toNat)) ∧
    (0 : Int) ∉ sends (make_primes fuel N).frame.trace ∧
    (1 : Int) ∉ sends (make_primes fuel N).frame.trace ∧
    N ∉ sends (make_primes fuel N).frame.trace := by
  have hpos : 0 < fuel := by omega
  have hmem := mem_sends_make_primes N (by omega) hN fuel hfuel hpos
  refine ⟨(make_primes_ok N (by omega) hN fuel hfuel hpos).1, hmem, ?_, ?_, ?_⟩
  · rw [hmem]; omega
  · rw [hmem]; omega
  · rw [hmem]; omega

/-- Instance of C1 at bound 10. -/
theorem C1_witness :
    (make_primes 10 10).halt = none ∧
    (∀ v : Int, v ∈ sends (make_primes 10 10).frame.trace ↔
      (2 ≤ v ∧ v < 10 ∧ Nat.Prime v.toNat)) ∧
    (0 : Int) ∉ sends (make_primes 10 10).frame.trace ∧
    (1 : Int) ∉ sends (make_primes 10 10).frame.trace ∧
    (10 : Int) ∉ sends (make_primes 10 10).frame.trace :=
  C1_emits_exactly_primes 10 10 (by decide) (by decide) (by decide)

/-- C2: for every bound (and every amount of fuel, so also for runs cut short
or ending in a panic) the sequence of values sent by `make_primes` is strictly
increasing; consequently every sent value occurs exactly once. -/
theorem C2_emission_strictly_increasing (fuel : Nat) (N : Int) :
    List.Sorted (· < ·) (sends (make_primes fuel N).frame.trace) ∧
    ∀ v ∈ sends (make_primes fuel N).frame.trace,
      (sends (make_primes fuel N).frame.trace).count v = 1 := by
  have h := make_primes_sorted fuel N
  refine ⟨h, fun v hv => List.count_eq_one_of_mem ?_ hv⟩
  exact h.imp (fun hab => ne_of_lt hab)

/-- C3, as stated, fails in two ways.  At the largest 64-bit bound, and already
at the bound `2 ^ 48`, `main` computes no sum at all, because the allocation
panics.  At the bound `2 ^ 38 + 1` the primes below the bound add up to at
least `2 ^ 63`, which the 64-bit accumulator cannot hold: no run of `main`
yields that sum. -/
theorem C3_counterexample :
    ((2 : Int) ≤ 9223372036854775807 ∧
      ¬ ∃ (fuel : Nat) (s : Int), main fuel 9223372036854775807 = some s) ∧
    ((2 : Int) ≤ 281474976710656 ∧
      ¬ ∃ (fuel : Nat) (s : Int), main fuel 281474976710656 = some s) ∧
    ((2 : Int) ≤ 274877906945 ∧ (274877906945 : Int) < 2 ^ 48 ∧
      ¬ ∃ fuel : Nat, main fuel 274877906945 =
        some ((∑ p ∈ (Finset.range 274877906945).filter Nat.Prime, p : Nat) : Int)) := by
  refine ⟨⟨by decide, ?_⟩, ⟨by decide, ?_⟩, by decide, by decide, ?_⟩
  · rintro ⟨fuel, s, h⟩
    rw [main_none_of_halt fuel _ (by rw [make_primes_maxInt]; simp)] at h
    exact absurd h (by simp)
  · rintro ⟨fuel, s, h⟩
    rw [main_none_of_halt fuel _
      (by rw [make_primes_tooLarge fuel _ (by norm_num) (by norm_num)]; simp)] at h
    exact absurd h (by simp)
  · rintro ⟨fuel, h⟩
    have hlt := main_lt fuel _ _ h
    have hge := prime_sum_large
    generalize ∑ p ∈ (Finset.range 274877906945).filter Nat.Prime, p = S at hlt hge
    omega

/-- C3 (amended): for every bound `N` with `2 ≤ N < 2 ^ 48`, the sum that
`main` accumulates over the stream produced by `make_primes` equals the sum of
all primes `p` with `2 ≤ p < N` reduced to the signed 64-bit range, and so
that sum itself whenever it is below `2 ^ 63`. -/
theorem C3_sum_of_primes (N : Int) (fuel : Nat) (h2 : 2 ≤ N) (hN : N < 2 ^ 48)
    (hfuel : N ≤ fuel) :
    main fuel N =
      some (wrap64 ((∑ p ∈ (Finset.range N.toNat).filter Nat.Prime, p : Nat) : Int)) ∧
    ((∑ p ∈ (Finset.range N.toNat).filter Nat.Prime, p) < 2 ^ 63 → main fuel N =
      some ((∑ p ∈ (Finset.range N.toNat).filter Nat.Prime, p : Nat) : Int)) := by
  refine ⟨?_, fun hs => ?_⟩
  · rw [main_wrap N (by omega) hN fuel hfuel (by omega), primesBelow_sum_eq]
  · rw [← primesBelow_sum_eq] at hs ⊢
    exact main_exact N (by omega) hN fuel hfuel (by omega) hs

/-- Instance of C3 at bound 20. -/
theorem C3_witness :
    main 20 20 =
      some (wrap64 ((∑ p ∈ (Finset.range (20 : Int).toNat).filter Nat.Prime, p : Nat) : Int)) ∧
    ((∑ p ∈ (Finset.range (20 : Int).toNat).filter Nat.Prime, p) < 2 ^ 63 → main 20 20 =
      some ((∑ p ∈ (Finset.range (20 : Int).toNat).filter Nat.Prime, p : Nat) : Int)) :=
  C3_sum_of_primes 20 20 (by decide) (by decide) (by decide)

/-- C4: with the default bound (`maxprime`, which is 2,000,000) and enough
fuel, the sum computed by `main` over the output of `make_primes` is exactly
142913828922. -/
theorem C4_default_bound_sum (fuel : Nat) (hfuel : 2000000 ≤ fuel) :
    maxprime = 2000000 ∧ main fuel maxprime = some 142913828922 := by
  refine ⟨rfl, ?_⟩
  have hf : maxprime ≤ (fuel : Int) := by
    unfold maxprime
    exact_mod_cast hfuel
  have ht : maxprime.toNat = 2000000 := rfl
  rw [main_ok maxprime (by unfold maxprime; norm_num) (by unfold maxprime; norm_num) fuel hf
    (by omega), ht, primesBelow_sum_two_million]
  rfl

/-- Instance of C4 with two million units of fuel. -/
theorem C4_witness : maxprime = 2000000 ∧ main 2000000 maxprime = some 142913828922 :=
  C4_default_bound_sum 2000000 (le_refl _)

/-- C5, as stated, fails at `N = -2`: the length `N + 1` is negative, `make`
panics, the channel is never closed and `main` computes no sum. -/
theorem C5_counterexample :
    (-2 : Int) < 2 ∧
    (¬ ∃ fuel : Nat, (make_primes fuel (-2)).halt = none) ∧
    (¬ ∃ fuel : Nat, Event.close ∈ (make_primes fuel (-2)).frame.trace) ∧
    (¬ ∃ fuel : Nat, main fuel (-2) = some 0) := by
  have e : ∀ fuel, make_primes fuel (-2) =
      ⟨{ i := 0, sieve := [], trace := [], arith := [.lenPlusOne (-2)] },
        some .makesliceLen⟩ :=
    fun fuel => make_primes_negLen fuel (-2) (by decide) (by decide)
  refine ⟨by decide, ?_, ?_, ?_⟩
  · rintro ⟨fuel, h⟩
    rw [e] at h
    exact absurd h (by simp)
  · rintro ⟨fuel, h⟩
    rw [e] at h
    simp at h
  · rintro ⟨fuel, h⟩
    rw [main_none_of_halt fuel _ (by rw [e]; simp)] at h
    exact absurd h (by simp)

/-- C5 (amended): for every bound `N` with `-1 ≤ N < 2` (that is `N = -1`,
`0` or `1`), running `make_primes` is not an error: it allocates the index
(of length `N + 1`), sends no value, closes the channel, and the sum computed
by `main` is 0. -/
theorem C5_degenerate_bound (N : Int) (fuel : Nat) (h1 : -1 ≤ N) (h2 : N < 2)
    (hpos : 0 < fuel) :
    (make_primes fuel N).halt = none ∧
    ((make_primes fuel N).frame.sieve.length : Int) = N + 1 ∧
    (make_primes fuel N).frame.trace = [Event.close] ∧
    main fuel N = some 0 := by
  obtain ⟨hh, ht, hl, _⟩ := make_primes_ok N h1 (by omega) fuel (by omega) hpos
  have hnil : primesBelow N.toNat = [] := primesBelow_small (by omega)
  refine ⟨hh, hl, by rw [ht, hnil]; rfl, ?_⟩
  rw [main_ok N h1 (by omega) fuel (by omega) hpos, hnil]
  rfl

/-- Instance of C5 at bound 0. -/
theorem C5_witness :
    (make_primes 1 0).halt = none ∧
    ((make_primes 1 0).frame.sieve.length : Int) = 0 + 1 ∧
    (make_primes 1 0).frame.trace = [Event.close] ∧
    main 1 0 = some 0 :=
  C5_degenerate_bound 0 1 (by decide) (by decide) (by decide)

/-- C6: with `N = 10` `make_primes` sends exactly 2, 3, 5, 7 (and then closes
the channel) and the sum is 17; with `N = 20` it sends exactly 2, 3, 5, 7, 11,
13, 17, 19 and the sum is 77. -/
theorem C6_scenarios_10_20 (fuel : Nat) (hfuel : 20 ≤ fuel) :
    (make_primes fuel 10).frame.trace =
      [.send 2, .send 3, .send 5, .send 7, .close] ∧
    main fuel 10 = some 17 ∧
    (make_primes fuel 20).frame.trace =
      [.send 2, .send 3, .send 5, .send 7, .send 11, .send 13, .send 17, .send 19, .close] ∧
    main fuel 20 = some 77 := by
  have f10 : (10 : Int) ≤ fuel := by omega
  have f20 : (20 : Int) ≤ fuel := by omega
  have t10 : (10 : Int).toNat = 10 := rfl
  have t20 : (20 : Int).toNat = 20 := rfl
  refine ⟨?_, ?_, ?_, ?_⟩
  · rw [(make_primes_ok 10 (by decide) (by decide) fuel f10 (by omega)).2.1, t10,
      primesBelow_10]
    rfl
  · rw [main_ok 10 (by decide) (by decide) fuel f10 (by omega), t10, primesBelow_10]
    rfl
  · rw [(make_primes_ok 20 (by decide) (by decide) fuel f20 (by omega)).2.1, t20,
      primesBelow_20]
    rfl
  · rw [main_ok 20 (by decide) (by decide) fuel f20 (by omega), t20, primesBelow_20]
    rfl

/-- Instance of C6 with 20 units of fuel, evaluated. -/
theorem C6_witness :
    (make_primes 20 10).frame.trace =
      [.send 2, .send 3, .send 5, .send 7, .close] ∧
    main 20 10 = some 17 ∧
    (make_primes 20 20).frame.trace =
      [.send 2, .send 3, .send 5, .send 7, .send 11, .send 13, .send 17, .send 19, .close] ∧
    main 20 20 = some 77 :=
  C6_scenarios_10_20 20 (by decide)

/-- C7: with `N = 2` `make_primes` sends nothing (it only closes the channel)
and the sum is 0; with `N = 3` it sends exactly 2 and the sum is 2. -/
theorem C7_boundary_2_3 (fuel : Nat) (hfuel : 3 ≤ fuel) :
    (make_primes fuel 2).frame.trace = [.close] ∧
    main fuel 2 = some 0 ∧
    (make_primes fuel 3).frame.trace = [.send 2, .close] ∧
    main fuel 3 = some 2 := by
  have f2 : (2 : Int) ≤ fuel := by omega
  have f3 : (3 : Int) ≤ fuel := by omega
  have t2 : (2 : Int).toNat = 2 := rfl
  have t3 : (3 : Int).toNat = 3 := rfl
  refine ⟨?_, ?_, ?_, ?_⟩
  · rw [(make_primes_ok 2 (by decide) (by decide) fuel f2 (by omega)).2.1, t2,
      primesBelow_small (le_refl 2)]
    rfl
  · rw [main_ok 2 (by decide) (by decide) fuel f2 (by omega), t2,
      primesBelow_small (le_refl 2)]
    rfl
  · rw [(make_primes_ok 3 (by decide) (by decide) fuel f3 (by omega)).2.1, t3,
      primesBelow_3]
    rfl
  · rw [main_ok 3 (by decide) (by decide) fuel f3 (by omega), t3, primesBelow_3]
    rfl

/-- Instance of C7 with 3 units of fuel, evaluated. -/
theorem C7_witness :
    (make_primes 3 2).frame.trace = [.close] ∧
    main 3 2 = some 0 ∧
    (make_primes 3 3).frame.trace = [.send 2, .close] ∧
    main 3 3 = some 2 :=
  C7_boundary_2_3 3 (by decide)

/-- C8, as stated, fails at the largest 64-bit bound, and already at the bound
`2 ^ 48`: end-of-stream is never signalled, because the run stops in the
allocation. -/
theorem C8_counterexample :
    ((0 : Int) ≤ 9223372036854775807 ∧
      (¬ ∃ fuel : Nat,
        Event.close ∈ (make_primes fuel 9223372036854775807).frame.trace) ∧
      (¬ ∃ fuel : Nat, (make_primes fuel 9223372036854775807).halt = none)) ∧
    ((0 : Int) ≤ 281474976710656 ∧
      (¬ ∃ fuel : Nat, Event.close ∈ (make_primes fuel 281474976710656).frame.trace) ∧
      (¬ ∃ fuel : Nat, (make_primes fuel 281474976710656).halt = none)) := by
  have e : ∀ fuel, make_primes fuel 281474976710656 =
      ⟨{ i := 0, sieve := [], trace := [], arith := [.lenPlusOne 281474976710656] },
        some .makesliceLen⟩ :=
    fun fuel => make_primes_tooLarge fuel _ (by norm_num) (by norm_num)
  refine ⟨⟨by decide, ?_, ?_⟩, by decide, ?_, ?_⟩
  · rintro ⟨fuel, h⟩
    rw [make_primes_maxInt] at h
    simp at h
  · rintro ⟨fuel, h⟩
    rw [make_primes_maxInt] at h
    exact absurd h (by simp)
  · rintro ⟨fuel, h⟩
    rw [e] at h
    simp at h
  · rintro ⟨fuel, h⟩
    rw [e] at h
    exact absurd h (by simp)

/-- C8 (amended): for every bound `N` with `0 ≤ N < 2 ^ 48`, `make_primes`
terminates: there is an amount of fuel from which on the run reaches the end
of the function (so the outer loop and every inner loop have finished), and
the channel operations performed are a finite sequence of sends followed by
exactly one close, with nothing after it. -/
theorem C8_terminates (N : Int) (h0 : 0 ≤ N) (hN : N < 2 ^ 48) :
    ∃ fuel0 : Nat, ∀ fuel : Nat, fuel0 ≤ fuel →
      (make_primes fuel N).halt = none ∧
      ∃ vs : List Int,
        (make_primes fuel N).frame.trace = vs.map Event.send ++ [Event.close] := by
  refine ⟨N.toNat + 1, fun fuel hfuel => ?_⟩
  obtain ⟨hh, ht, _⟩ := make_primes_ok N (by omega) hN fuel (by omega) (by omega)
  refine ⟨hh, (primesBelow N.toNat).map (fun p : Nat => (p : Int)), ?_⟩
  rw [ht, List.map_map]
  rfl

/-- Instance of C8 at bound 10. -/
theorem C8_witness :
    ∃ fuel0 : Nat, ∀ fuel : Nat, fuel0 ≤ fuel →
      (make_primes fuel 10).halt = none ∧
      ∃ vs : List Int,
        (make_primes fuel 10).frame.trace = vs.map Event.send ++ [Event.close] :=
  C8_terminates 10 (by decide) (by decide)

/-- C9: with 64-bit integers and a bound `N` with `2 ≤ N ≤ 2 ^ 31`, nothing
computed in a run wraps around: every arithmetic result of `make_primes` is
unchanged by the reduction to 64 bits, every `i * 2` and every `j + i` is
below `2 * N`, and every value of the running sum of `main` is unchanged by the
reduction and at most `N * (N - 1) / 2`; all are below `2 ^ 63`. -/
theorem C9_no_wraparound (N : Int) (fuel : Nat) (h2 : 2 ≤ N) (hN : N ≤ 2 ^ 31)
    (hfuel : N ≤ fuel) :
    (∀ a ∈ (make_primes fuel N).frame.arith,
      wrap64 a.exact = a.exact ∧ a.exact < 2 ^ 63 ∧
      (∀ i : Int, a = Arith.twice i → i * 2 < 2 * N) ∧
      (∀ j i : Int, a = Arith.advance j i → j + i < 2 * N)) ∧
    ∃ d : Drain, mainRun fuel N = some d ∧
      ∀ x ∈ d.partials, wrap64 x = x ∧ x ≤ N * (N - 1) / 2 ∧ x < 2 ^ 63 := by
  have hpos : 0 < fuel := by omega
  constructor
  · intro a ha
    have hok := (make_primes_ok N (by omega) (by omega) fuel hfuel hpos).2.2.2.2 a ha
    cases a with
    | lenPlusOne n =>
      simp only [ArithOk] at hok
      subst hok
      refine ⟨wrap64_of_inRange (by simp only [Arith.exact]; omega)
        (by simp only [Arith.exact]; omega), by simp only [Arith.exact]; omega, ?_, ?_⟩
      · intro i hi; cases hi
      · intro j i hi; cases hi
    | twice i =>
      simp only [ArithOk] at hok
      refine ⟨wrap64_of_inRange (by simp only [Arith.exact]; omega)
        (by simp only [Arith.exact]; omega), by simp only [Arith.exact]; omega, ?_, ?_⟩
      · intro i0 hi
        cases hi
        omega
      · intro j i0 hi; cases hi
    | advance j i =>
      simp only [ArithOk] at hok
      refine ⟨wrap64_of_inRange (by simp only [Arith.exact]; omega)
        (by simp only [Arith.exact]; omega), by simp only [Arith.exact]; omega, ?_, ?_⟩
      · intro i0 hi; cases hi
      · intro j0 i0 hi
        cases hi
        omega
    | incr i =>
      simp only [ArithOk] at hok
      refine ⟨wrap64_of_inRange (by simp only [Arith.exact]; omega)
        (by simp only [Arith.exact]; omega), by simp only [Arith.exact]; omega, ?_, ?_⟩
      · intro i0 hi; cases hi
      · intro j i0 hi; cases hi
  · obtain ⟨ps, e1, e2⟩ := mainRun_ok N (by omega) (by omega) fuel hfuel hpos
    refine ⟨_, e1, ?_⟩
    intro x hx
    obtain ⟨hx0, hxs⟩ := e2 x hx
    have hle := primesBelow_sum_le N.toNat
    have hlt := primesBelow_sum_lt N.toNat (by omega)
    have hcast : ((N.toNat * (N.toNat - 1) : Nat) : Int) = N * (N - 1) := by
      rw [Nat.cast_mul, Nat.cast_sub (by omega)]
      have : (N.toNat : Int) = N := by omega
      rw [this]; simp
    have hle2 : 2 * (((primesBelow N.toNat).sum : Nat) : Int) ≤ N * (N - 1) := by
      rw [← hcast]; exact_mod_cast hle
    have hlt2 : (((primesBelow N.toNat).sum : Nat) : Int) < 2 ^ 63 := by exact_mod_cast hlt
    generalize N * (N - 1) = t at hle2 ⊢
    refine ⟨wrap64_of_inRange (by omega) (by omega), by omega, by omega⟩

/-- Instance of C9 at bound 10. -/
theorem C9_witness :
    (∀ a ∈ (make_primes 10 10).frame.arith,
      wrap64 a.exact = a.exact ∧ a.exact < 2 ^ 63 ∧
      (∀ i : Int, a = Arith.twice i → i * 2 < 2 * 10) ∧
      (∀ j i : Int, a = Arith.advance j i → j + i < 2 * 10)) ∧
    ∃ d : Drain, mainRun 10 10 = some d ∧
      ∀ x ∈ d.partials, wrap64 x = x ∧ x ≤ 10 * (10 - 1) / 2 ∧ x < 2 ^ 63 :=
  C9_no_wraparound 10 10 (by decide) (by decide) (by decide)

/-- C10: sieve loop invariant.  For every 64-bit bound `N` whose index could
be allocated and every candidate `j` with `2 ≤ j < N`: in every state in which
the outer loop stands at its head with `i = j`, `sieve[j]` is true exactly when
some prime `p ≤ sqrt j` divides `j`, and if `sieve[j]` is false then `j` is
prime.  For `N ≤ 2 ^ 62` that state is reached, after `j - 2` iterations. -/
theorem C10_loop_invariant (N : Int) (j inner : Nat) (hN : N + 1 < 2 ^ 63) (h2 : 2 ≤ j)
    (hj : (j : Int) < N) (hin : N ≤ inner) :
    (∀ (fuel : Nat) (f : Frame),
      outerLoop N inner fuel (initFrame N) = ⟨f, some .outOfFuel⟩ → f.i = j →
        (f.sieve.getD j false = true ↔ ∃ p : Nat, p.Prime ∧ p ≤ Nat.sqrt j ∧ p ∣ j) ∧
        (f.sieve.getD j false = false → j.Prime)) ∧
    (N ≤ 2 ^ 62 → ∃ f : Frame,
      outerLoop N inner (j - 2) (initFrame N) = ⟨f, some .outOfFuel⟩ ∧ f.i = j) := by
  have hinit := inv_init N (by omega) hN
  constructor
  · intro fuel f hrun hfi
    rcases outer_run N hN inner hin fuel 2 (le_refl 2) (by omega) (initFrame N) hinit with
      ⟨_, _, hinv⟩ | ⟨hh, _, _⟩ | ⟨hh, _⟩
    · rw [hrun] at hinv
      have hj2 : 2 + fuel = j := by
        have := hinv.i_eq
        simp only at this
        omega
      rw [hj2] at hinv
      have hm := hinv.marked j
      simp only at hm
      constructor
      · rw [hm, ← markedBy_self_iff_sqrt h2]
        exact ⟨fun h => h.2, fun h => ⟨hj, h⟩⟩
      · intro hs
        by_contra hnp
        have := hm.mpr ⟨hj, markedBy_self_of_not_prime h2 hnp⟩
        rw [hs] at this
        exact absurd this (by simp)
    · rw [hrun] at hh; exact absurd hh (by simp)
    · rw [hrun] at hh; exact absurd hh (by simp)
  · intro hN62
    rcases outer_run N hN inner hin (j - 2) 2 (le_refl 2) (by omega) (initFrame N) hinit with
      ⟨hh, _, hinv⟩ | ⟨_, hlt, _⟩ | ⟨_, hbig⟩
    · refine ⟨(outerLoop N inner (j - 2) (initFrame N)).frame, ?_, ?_⟩
      · rw [← hh]
      · have := hinv.i_eq
        omega
    · exfalso; omega
    · exfalso; omega

/-- Instance of C10 at bound 20 and candidate 9. -/
theorem C10_witness :
    (∀ (fuel : Nat) (f : Frame),
      outerLoop 20 20 fuel (initFrame 20) = ⟨f, some .outOfFuel⟩ → f.i = (9 : Nat) →
        (f.sieve.getD 9 false = true ↔ ∃ p : Nat, p.Prime ∧ p ≤ Nat.sqrt 9 ∧ p ∣ 9) ∧
        (f.sieve.getD 9 false = false → (9 : Nat).Prime)) ∧
    ((20 : Int) ≤ 2 ^ 62 → ∃ f : Frame,
      outerLoop 20 20 (9 - 2) (initFrame 20) = ⟨f, some .outOfFuel⟩ ∧ f.i = (9 : Nat)) :=
  C10_loop_invariant 20 9 20 (by decide) (by decide) (by decide) (by decide)

/-! ## Finished runs, for every 64-bit bound -/

/-- Whenever a run of `make_primes` with a bound in the 64-bit range reaches
the end of the function, it has sent the primes below the bound and closed the
channel, and exactly the composite numbers below the bound are marked. -/
theorem make_primes_finished (N : Int) (h1 : -1 ≤ N) (h63 : N < 2 ^ 63) (fuel : Nat)
    (hfuel : N ≤ fuel) (hfin : (make_primes fuel N).halt = none) :
    (make_primes fuel N).frame.trace =
      (primesBelow N.toNat).map (fun p : Nat => Event.send (p : Int)) ++ [.close] ∧
    ((make_primes fuel N).frame.sieve.length : Int) = N + 1 ∧
    (∀ k : Nat, (make_primes fuel N).frame.sieve.getD k false = true ↔
      (2 ≤ k ∧ (k : Int) < N ∧ ¬ k.Prime)) := by
  have hpos : 0 < fuel := by
    by_contra h0
    have hz : fuel = 0 := by omega
    subst hz
    unfold make_primes at hfin
    by_cases hw : wrap64 (N + 1) < 0 ∨ maxAlloc < wrap64 (N + 1)
    · rw [if_pos hw] at hfin; exact absurd hfin (by simp)
    · rw [if_neg hw] at hfin
      simp [outerLoop] at hfin
  by_cases hN2 : 2 ≤ N
  · by_cases hmax : N < 2 ^ 48
    · have hw := alloc_ok N h1 hmax
      have hinit := inv_init N h1 (by omega)
      unfold make_primes at hfin ⊢
      rw [if_neg hw] at hfin ⊢
      rcases outer_run N (by omega) fuel hfuel fuel 2 (le_refl 2) hN2 (initFrame N) hinit with
        ⟨hh, _, _⟩ | ⟨hh, _, hinv⟩ | ⟨hh, _⟩
      · simp [hh] at hfin
      · simp only [hh]
        refine ⟨by rw [hinv.trace], hinv.len, ?_⟩
        intro k
        rw [hinv.marked k]
        constructor
        · rintro ⟨hk, hm⟩
          refine ⟨?_, hk, markedBy_not_prime hm⟩
          by_contra hk2
          exact not_markedBy_small (by omega) hm
        · rintro ⟨hk2, hk, hp⟩
          exact ⟨hk, (markedBy_iff_composite hk2 (by omega)).mpr hp⟩
      · simp [hh] at hfin
    · have hw := alloc_fail N (by omega) h63 (Or.inr (by omega))
      unfold make_primes at hfin
      rw [if_pos hw] at hfin
      exact absurd hfin (by simp)
  · obtain ⟨_, ht, hl, hs, _⟩ := make_primes_ok N h1 (by omega) fuel hfuel hpos
    exact ⟨ht, hl, hs⟩

theorem primesBelow_initial_of_le {n m : Nat} (h : n ≤ m) : primesBelow n <+: primesBelow m := by
  induction m, h using Nat.le_induction with
  | base => exact List.prefix_refl _
  | succ m _ ih =>
    rw [primesBelow_succ]
    exact ih.trans (List.prefix_append _ _)

theorem primesBelow_filter_lt {n m : Nat} (h : n ≤ m) :
    (primesBelow m).filter (fun p => decide (p < n)) = primesBelow n := by
  induction m, h using Nat.le_induction with
  | base =>
    rw [List.filter_eq_self]
    intro p hp
    simpa using ((mem_primesBelow _ _).mp hp).1
  | succ m hm ih =>
    rw [primesBelow_succ, List.filter_append, ih]
    by_cases hp : m.Prime
    · have : ¬ m < n := by omega
      simp [hp, this]
    · simp [hp]

theorem primesBelow_sum_mono {n m : Nat} (h : n ≤ m) :
    (primesBelow n).sum ≤ (primesBelow m).sum := by
  obtain ⟨t, ht⟩ := primesBelow_initial_of_le h
  rw [← ht, List.sum_append]
  omega

/-- C13: final state of the composite index.  For every bound `N ≥ 0` (a
64-bit value) and every run of `make_primes` that reaches the end of the
function: the index has length `N + 1`; `sieve[k]` is true exactly when
`2 ≤ k < N` and `k` is not prime; the entries at 0, 1 and `N` are false (they
are never written: writes only set entries to true); and every value for which
marking was triggered (the values sent) is prime.  For `N < 2 ^ 48` the run
does reach the end. -/
theorem C13_final_sieve (N : Int) (fuel : Nat) (h0 : 0 ≤ N) (h63 : N < 2 ^ 63)
    (hfuel : N ≤ fuel) :
    ((make_primes fuel N).halt = none →
      ((make_primes fuel N).frame.sieve.length : Int) = N + 1 ∧
      (∀ k : Nat, (make_primes fuel N).frame.sieve.getD k false = true ↔
        (2 ≤ k ∧ (k : Int) < N ∧ ¬ k.Prime)) ∧
      (make_primes fuel N).frame.sieve.getD 0 false = false ∧
      (make_primes fuel N).frame.sieve.getD 1 false = false ∧
      (make_primes fuel N).frame.sieve.getD N.toNat false = false ∧
      ∀ v ∈ sends (make_primes fuel N).frame.trace, Nat.Prime v.toNat) ∧
    (N < 2 ^ 48 → 0 < fuel → (make_primes fuel N).halt = none) := by
  constructor
  · intro hfin
    obtain ⟨ht, hl, hs⟩ := make_primes_finished N (by omega) h63 fuel hfuel hfin
    have hfalse : ∀ k : Nat, ¬ (2 ≤ k ∧ (k : Int) < N ∧ ¬ k.Prime) →
        (make_primes fuel N).frame.sieve.getD k false = false := by
      intro k hk
      cases hb : (make_primes fuel N).frame.sieve.getD k false with
      | false => rfl
      | true => exact absurd ((hs k).mp hb) hk
    refine ⟨hl, hs, hfalse 0 (by omega), hfalse 1 (by omega), hfalse N.toNat (by omega), ?_⟩
    intro v hv
    rw [ht, sends_append, sends_map_send] at hv
    simp only [sends, List.append_nil, List.mem_map] at hv
    obtain ⟨p, hp, rfl⟩ := hv
    simpa using ((mem_primesBelow _ _).mp hp).2
  · intro h62 hpos
    exact (make_primes_ok N (by omega) h62 fuel hfuel hpos).1

/-- Instance of C13 at bound 10. -/
theorem C13_witness :
    ((make_primes 10 10).halt = none →
      ((make_primes 10 10).frame.sieve.length : Int) = 10 + 1 ∧
      (∀ k : Nat, (make_primes 10 10).frame.sieve.getD k false = true ↔
        (2 ≤ k ∧ (k : Int) < 10 ∧ ¬ k.Prime)) ∧
      (make_primes 10 10).frame.sieve.getD 0 false = false ∧
      (make_primes 10 10).frame.sieve.getD 1 false = false ∧
      (make_primes 10 10).frame.sieve.getD (10 : Int).toNat false = false ∧
      ∀ v ∈ sends (make_primes 10 10).frame.trace, Nat.Prime v.toNat) ∧
    ((10 : Int) < 2 ^ 48 → 0 < 10 → (make_primes 10 10).halt = none) :=
  C13_final_sieve 10 10 (by decide) (by decide) (by decide)

/-- Some bound up to `2 ^ 38 + 1` has a sum of primes between `2 ^ 63` and
`2 ^ 64`: the first bound at which the sum reaches `2 ^ 63`. -/
theorem exists_wrapped_sum :
    ∃ M : Nat, 3 ≤ M ∧ M ≤ 274877906945 ∧ 2 ^ 63 ≤ (primesBelow M).sum ∧
      (primesBelow M).sum < 2 ^ 64 := by
  have hex : ∃ m : Nat, 2 ^ 63 ≤ (primesBelow m).sum := ⟨274877906945, primesBelow_sum_large⟩
  have hle := Nat.find_min' hex primesBelow_sum_large
  have hspec := Nat.find_spec hex
  refine ⟨Nat.find hex, ?_, hle, hspec, ?_⟩
  · by_contra hlt
    have h1 := primesBelow_sum_mono (show Nat.find hex ≤ 3 by omega)
    rw [primesBelow_3] at h1
    simp only [List.sum_cons, List.sum_nil] at h1
    omega
  · cases hM : Nat.find hex with
    | zero =>
      rw [hM] at hspec
      simp [primesBelow] at hspec
    | succ m =>
      have hmin : ¬ 2 ^ 63 ≤ (primesBelow m).sum := Nat.find_min hex (by omega)
      rw [primesBelow_succ, List.sum_append]
      have hs : (if m.Prime then [m] else []).sum ≤ m := by
        split_ifs <;> simp
      omega

/-- C14, as stated, fails in two ways.  For `N = 10` and `M = 2 ^ 63 - 1`, and
already for `M = 2 ^ 48`, the run with bound 10 sends 2, 3, 5, 7 and the run
with bound `M` sends nothing (the allocation panics).  And there is a bound
`M` below `2 ^ 48` for which the sum of the primes has left the 64-bit range,
so that the sum computed for `M` is below the sum computed for the bound 3. -/
theorem C14_counterexample :
    ((0 : Int) ≤ 10 ∧ (10 : Int) ≤ 9223372036854775807 ∧
      sends (make_primes 10 10).frame.trace = [2, 3, 5, 7] ∧
      ¬ ∃ fuel : Nat, sends (make_primes 10 10).frame.trace <+:
        sends (make_primes fuel 9223372036854775807).frame.trace) ∧
    ((10 : Int) ≤ 281474976710656 ∧
      ¬ ∃ fuel : Nat, sends (make_primes 10 10).frame.trace <+:
        sends (make_primes fuel 281474976710656).frame.trace) ∧
    (∃ M : Int, 3 ≤ M ∧ M < 2 ^ 48 ∧ ∀ fuel : Nat, M ≤ fuel →
      ∃ a b : Int, main fuel 3 = some a ∧ main fuel M = some b ∧ b < a) := by
  have e : sends (make_primes 10 10).frame.trace = [2, 3, 5, 7] := by decide
  refine ⟨⟨by decide, by decide, e, ?_⟩, ⟨by decide, ?_⟩, ?_⟩
  · rintro ⟨fuel, h⟩
    rw [make_primes_maxInt, e] at h
    simp [sends] at h
  · rintro ⟨fuel, h⟩
    rw [make_primes_tooLarge fuel _ (by norm_num) (by norm_num), e] at h
    simp [sends] at h
  · obtain ⟨M, h3, hle, hge, hlt⟩ := exists_wrapped_sum
    refine ⟨(M : Int), by omega, by omega, fun fuel hfuel => ?_⟩
    have hM : ((M : Nat) : Int).toNat = M := by omega
    have t3 : (3 : Int).toNat = 3 := rfl
    refine ⟨2, wrap64 (((primesBelow M).sum : Nat) : Int), ?_, ?_, ?_⟩
    · rw [main_ok 3 (by decide) (by decide) fuel (by omega) (by omega), t3, primesBelow_3]
      rfl
    · rw [main_wrap (M : Int) (by omega) (by omega) fuel hfuel (by omega), hM]
    · have hge1 : (2 : Int) ^ 63 ≤ (((primesBelow M).sum : Nat) : Int) := by exact_mod_cast hge
      have hlt1 : (((primesBelow M).sum : Nat) : Int) < 2 ^ 64 := by exact_mod_cast hlt
      unfold wrap64
      omega

/-- C14 (amended): monotonicity in the bound.  For all bounds
`0 ≤ N ≤ M < 2 ^ 48`, the sequence sent by `make_primes` with bound `N` is a
prefix of the sequence sent with bound `M`, namely the sent values of the
`M`-run that are below `N`; and when the primes below `M` add up to less than
`2 ^ 63`, the sum for `N` is at most the sum for `M`. -/
theorem C14_monotone_in_bound (N M : Int) (fuel : Nat) (h0 : 0 ≤ N) (hNM : N ≤ M)
    (hM : M < 2 ^ 48) (hfuel : M ≤ fuel) (hpos : 0 < fuel) :
    sends (make_primes fuel N).frame.trace <+: sends (make_primes fuel M).frame.trace ∧
    sends (make_primes fuel N).frame.trace =
      (sends (make_primes fuel M).frame.trace).filter (fun v => decide (v < N)) ∧
    ((∑ p ∈ (Finset.range M.toNat).filter Nat.Prime, p) < 2 ^ 63 →
      ∃ a b : Int, main fuel N = some a ∧ main fuel M = some b ∧ a ≤ b) := by
  have hle : N.toNat ≤ M.toNat := by omega
  rw [sends_make_primes N (by omega) (by omega) fuel (by omega) hpos,
    sends_make_primes M (by omega) hM fuel hfuel hpos]
  refine ⟨(primesBelow_initial_of_le hle).map _, ?_, ?_⟩
  · rw [List.filter_map, ← primesBelow_filter_lt hle]
    congr 1
    apply List.filter_congr
    intro p _
    simp only [Function.comp_apply, decide_eq_decide]
    omega
  · intro hs
    rw [← primesBelow_sum_eq] at hs
    have hmono := primesBelow_sum_mono hle
    refine ⟨_, _, main_exact N (by omega) (by omega) fuel (by omega) hpos (by omega),
      main_exact M (by omega) hM fuel hfuel hpos hs, ?_⟩
    exact_mod_cast hmono

/-- Instance of C14 at bounds 10 and 20. -/
theorem C14_witness :
    sends (make_primes 20 10).frame.trace <+: sends (make_primes 20 20).frame.trace ∧
    sends (make_primes 20 10).frame.trace =
      (sends (make_primes 20 20).frame.trace).filter (fun v => decide (v < 10)) ∧
    ((∑ p ∈ (Finset.range (20 : Int).toNat).filter Nat.Prime, p) < 2 ^ 63 →
      ∃ a b : Int, main 20 10 = some a ∧ main 20 20 = some b ∧ a ≤ b) :=
  C14_monotone_in_bound 10 20 20 (by decide) (by decide) (by decide) (by decide) (by decide)

/-! ## The inner loop without overflow -/

/-- The inner loop runs to its exit whenever no `j + i` it computes reaches
`2 ^ 63`. -/
theorem markLoop_ok (N i : Int) (hN : N < 2 ^ 63) (hi1 : 1 ≤ i)
    (fuel : Nat) (j : Int) (f : Frame) (hj : 0 ≤ j)
    (hlen : (f.sieve.length : Int) = N + 1) (hfuel : N - j < fuel) (hpos : 0 < fuel)
    (hno : ∀ m : Nat, j + i * m < N → j + i * m + i < 2 ^ 63) :
    (markLoop N i fuel j f).halt = none ∧
    (∀ k : Nat, (markLoop N i fuel j f).frame.sieve.getD k false = true ↔
      (f.sieve.getD k false = true ∨ ((k : Int) < N ∧ ∃ m : Nat, (k : Int) = j + i * m))) ∧
    ∃ extra, (markLoop N i fuel j f).frame.arith = f.arith ++ extra ∧
      ∀ a ∈ extra, ∃ j0 : Int, a = Arith.advance j0 i ∧ j ≤ j0 ∧ j0 < N ∧ j0 + i < 2 ^ 63 := by
  induction fuel generalizing j f with
  | zero => exact absurd hpos (lt_irrefl 0)
  | succ fuel ih =>
    unfold markLoop
    by_cases hjN : j < N
    · have hidx : 0 ≤ j ∧ j < (f.sieve.length : Int) := ⟨hj, by omega⟩
      rw [if_pos hjN, if_pos hidx]
      have hfp : 0 < fuel := by push_cast at hfuel; omega
      have hov : j + i < 2 ^ 63 := by
        have := hno 0 (by simpa using hjN)
        simpa using this
      have hw : wrap64 (j + i) = j + i := wrap64_of_inRange (by omega) hov
      rw [hw]
      have hlt : j.toNat < f.sieve.length := by omega
      obtain ⟨h1, h2, extra, h3, h4⟩ := ih (j + i)
        { f with sieve := f.sieve.set j.toNat true, arith := f.arith ++ [.advance j i] }
        (by omega) (by simpa using hlen) (by push_cast at hfuel ⊢; omega) hfp
        (by
          intro m hm
          have e : j + i + i * (m : Int) = j + i * ((m + 1 : Nat) : Int) := by
            push_cast; ring
          rw [e] at hm ⊢
          exact hno (m + 1) hm)
      refine ⟨h1, ?_, ?_⟩
      · intro k
        rw [h2 k]
        simp only [getD_set_true _ _ _ hlt]
        constructor
        · rintro ((hk | hk) | ⟨hkN, m, hm⟩)
          · exact Or.inr ⟨by omega, 0, by simp; omega⟩
          · exact Or.inl hk
          · exact Or.inr ⟨hkN, m + 1, by push_cast; rw [hm]; ring⟩
        · rintro (hk | ⟨hkN, m, hm⟩)
          · exact Or.inl (Or.inr hk)
          · cases m with
            | zero => exact Or.inl (Or.inl (by simp at hm; omega))
            | succ m => exact Or.inr ⟨hkN, m, by push_cast at hm; rw [hm]; ring⟩
      · refine ⟨Arith.advance j i :: extra, ?_, ?_⟩
        · rw [h3]; simp
        · intro a ha
          rcases List.mem_cons.mp ha with rfl | ha
          · exact ⟨j, rfl, le_refl _, hjN, hov⟩
          · obtain ⟨j0, e, h5, h6⟩ := h4 a ha
            exact ⟨j0, e, by omega, h6⟩
    · rw [if_neg hjN]
      exact ⟨rfl, fun k => ⟨fun h => Or.inl h, fun h => h.elim id (fun h => absurd h.1 (by
        rcases h.2 with ⟨m, hm⟩
        have : (0 : Int) ≤ i * m := by positivity
        omega))⟩, [], by simp, by simp⟩

/-! ## Index safety -/

theorem markLoop_no_index_panic (N i : Int) (hN : N ≤ 2 ^ 62) (hi1 : 1 ≤ i) (hi : i ≤ 2 ^ 62)
    (fuel : Nat) (j : Int) (f : Frame) (hj : 0 ≤ j)
    (hlen : (f.sieve.length : Int) = N + 1) :
    (markLoop N i fuel j f).halt ≠ some .indexOutOfRange := by
  induction fuel generalizing j f with
  | zero => simp [markLoop]
  | succ fuel ih =>
    unfold markLoop
    by_cases hjN : j < N
    · rw [if_pos hjN, if_pos ⟨hj, by omega⟩, wrap64_of_inRange (by omega) (by omega)]
      exact ih (j + i) _ (by omega) (by simpa using hlen)
    · rw [if_neg hjN]
      simp

theorem outerLoop_length (N : Int) (inner fuel : Nat) (f : Frame) :
    (outerLoop N inner fuel f).frame.sieve.length = f.sieve.length := by
  induction fuel generalizing f with
  | zero => rfl
  | succ fuel ih =>
    unfold outerLoop
    split_ifs
    · simp only
      split
      · rw [ih]
        simp only [markLoop_length]
      · simp only [markLoop_length]
    · rw [ih]
    · rfl
    · rfl

/-- Without overflow no run of the outer loop, whatever the fuel, stops on an
index out of range. -/
theorem outerLoop_no_index_panic (N : Int) (hN : N ≤ 2 ^ 62) (inner fuel : Nat) (f : Frame)
    (hi2 : 2 ≤ f.i) (hlen : (f.sieve.length : Int) = N + 1) :
    (outerLoop N inner fuel f).halt ≠ some .indexOutOfRange := by
  induction fuel generalizing f with
  | zero => simp [outerLoop]
  | succ fuel ih =>
    unfold outerLoop
    by_cases c1 : f.i < N
    · have c2 : 0 ≤ f.i ∧ f.i < (f.sieve.length : Int) := ⟨by omega, by omega⟩
      have hw1 : wrap64 (f.i + 1) = f.i + 1 := wrap64_of_inRange (by omega) (by omega)
      rw [if_pos c1, if_pos c2]
      by_cases hs : f.sieve.getD f.i.toNat false = false
      · rw [if_pos hs]
        have hw2 : wrap64 (f.i * 2) = f.i * 2 := wrap64_of_inRange (by omega) (by omega)
        have hm := markLoop_no_index_panic N f.i hN (by omega) (by omega) inner (f.i * 2)
          { f with trace := f.trace ++ [.send f.i], arith := f.arith ++ [.twice f.i] }
          (by omega) hlen
        simp only [hw2, hw1]
        split
        · apply ih
          · show 2 ≤ f.i + 1
            omega
          · simp only [markLoop_length]
            exact hlen
        · exact hm
      · rw [if_neg hs, hw1]
        exact ih _ (by show 2 ≤ f.i + 1; omega) hlen
    · rw [if_neg c1]
      simp

/-- C12: index safety.  For every bound `N ≥ 0` (a 64-bit value) no run of
`make_primes`, whatever the fuel, stops on an index out of range: every read
`sieve[i]` and every write `sieve[j]` (each of them checked against
`0 .. len - 1`) uses an index inside the index array.  For `N < 2 ^ 48` that
array has length `N + 1`, so the indices used lie in `0 .. N`, and with enough
fuel the run reaches the end of the function; for larger `N` the run stops in
the allocation, before any index expression. -/
theorem C12_index_in_range (N : Int) (fuel : Nat) (h0 : 0 ≤ N) (h63 : N < 2 ^ 63) :
    (make_primes fuel N).halt ≠ some .indexOutOfRange ∧
    (N < 2 ^ 48 →
      ((make_primes fuel N).frame.sieve.length : Int) = N + 1 ∧
      (N ≤ fuel → 0 < fuel → (make_primes fuel N).halt = none)) ∧
    (2 ^ 48 ≤ N → (make_primes fuel N).halt = some .makesliceLen) := by
  have hbig : 2 ^ 48 ≤ N → (make_primes fuel N).halt = some .makesliceLen := by
    intro h48
    rw [make_primes_tooLarge fuel N h48 h63]
  refine ⟨?_, ?_, hbig⟩
  · by_cases h48 : N < 2 ^ 48
    · have hw := alloc_ok N (by omega) h48
      have hlen : ((initFrame N).sieve.length : Int) = N + 1 :=
        (inv_init N (by omega) (by omega)).len
      have hsafe := outerLoop_no_index_panic N (by omega) fuel fuel (initFrame N)
        (by simp [initFrame]) hlen
      unfold make_primes
      rw [if_neg hw]
      simp only
      split
      · simp
      · exact hsafe
    · rw [hbig (by omega)]
      simp
  · intro h48
    have hw := alloc_ok N (by omega) h48
    have hlen : ((initFrame N).sieve.length : Int) = N + 1 :=
      (inv_init N (by omega) (by omega)).len
    have hl := outerLoop_length N fuel fuel (initFrame N)
    refine ⟨?_, fun hfuel hpos => (make_primes_ok N (by omega) h48 fuel hfuel hpos).1⟩
    unfold make_primes
    rw [if_neg hw]
    simp only
    split
    · simp only [hl]; exact hlen
    · simp only [hl]; exact hlen

/-- Instance of C12 at bound 10. -/
theorem C12_witness :
    (make_primes 10 10).halt ≠ some .indexOutOfRange ∧
    ((10 : Int) < 2 ^ 48 →
      ((make_primes 10 10).frame.sieve.length : Int) = 10 + 1 ∧
      ((10 : Int) ≤ (10 : Nat) → 0 < 10 → (make_primes 10 10).halt = none)) ∧
    ((2 : Int) ^ 48 ≤ 10 → (make_primes 10 10).halt = some .makesliceLen) :=
  C12_index_in_range 10 10 (by decide) (by decide)

/-! ## The variant started at the square -/

theorem markedBy_small_multiple {n k : Nat} (hk2 : 2 ≤ k) (hkn : k < n) :
    MarkedBy n (k * n) := by
  have hp : k.minFac.Prime := Nat.minFac_prime (by omega)
  have hle : k.minFac ≤ k := Nat.minFac_le (by omega)
  obtain ⟨c, hc⟩ := Nat.minFac_dvd k
  have hc1 : 1 ≤ c := by
    rcases Nat.eq_zero_or_pos c with h | h
    · subst h; simp at hc; omega
    · exact h
  refine ⟨k.minFac, c * n, hp, by omega, ?_, ?_⟩
  · calc 2 ≤ 1 * n := by omega
      _ ≤ c * n := Nat.mul_le_mul_right n hc1
  · conv_lhs => rw [hc]
    ring

theorem markedBy_succ_prime_sq {n : Nat} (hp : n.Prime) (k : Nat) :
    MarkedBy (n + 1) k ↔ (MarkedBy n k ∨ ∃ m : Nat, k = n * n + n * m) := by
  have hn2 := hp.two_le
  rw [markedBy_succ_prime hp k]
  constructor
  · rintro (h | ⟨m, hm⟩)
    · exact Or.inl h
    · by_cases hlt : 2 + m < n
      · left
        have := markedBy_small_multiple (n := n) (k := 2 + m) (by omega) hlt
        have e : k = (2 + m) * n := by rw [hm]; ring
        rw [e]; exact this
      · right
        refine ⟨2 + m - n, ?_⟩
        rw [hm, ← Nat.mul_add, ← Nat.mul_add]
        congr 1
        omega
  · rintro (h | ⟨m, hm⟩)
    · exact Or.inl h
    · right
      refine ⟨n - 2 + m, ?_⟩
      rw [hm, ← Nat.mul_add, ← Nat.mul_add]
      congr 1
      omega

/-- One iteration of the variant's outer loop keeps the invariant of the
original loop, for every bound up to `2 ^ 63 - 2 ^ 32`. -/
theorem outer_step_sq (N : Int) (hN : N + 2 ^ 32 ≤ 2 ^ 63) (inner : Nat) (hin : N ≤ inner)
    (n : Nat) (hn2 : 2 ≤ n) (hnN : (n : Int) < N) (f : Frame) (h : Inv N n f) :
    ∃ f1, Inv N (n + 1) f1 ∧
      ∀ fuel, outerLoopSq N inner (fuel + 1) f = outerLoopSq N inner fuel f1 := by
  obtain ⟨fi, sv, tr, ar⟩ := f
  obtain ⟨hi, hlen, hmarked, htrace, harith⟩ := h
  simp only at hi hlen hmarked htrace harith
  subst hi
  have c1 : (n : Int) < N := hnN
  have c2 : 0 ≤ (n : Int) ∧ (n : Int) < (sv.length : Int) := ⟨by omega, by omega⟩
  have hw1 : wrap64 ((n : Int) + 1) = ((n + 1 : Nat) : Int) :=
    (wrap64_of_inRange (by omega) (by omega)).trans (by push_cast; omega)
  have htn : (n : Int).toNat = n := by omega
  have hn2i : (2 : Int) ≤ n := by exact_mod_cast hn2
  have hsq : (n : Int) * 2 ≤ n * n := by nlinarith
  by_cases hs : sv.getD n false = false
  · have hprime : n.Prime := by
      by_contra hnp
      have := (hmarked n).mpr ⟨hnN, markedBy_self_of_not_prime hn2 hnp⟩
      rw [hs] at this
      exact absurd this (by simp)
    have hno : ∀ m : Nat, (n : Int) * n + n * m < N → (n : Int) * n + n * m + n < 2 ^ 63 := by
      intro m hm
      have hpos : (0 : Int) ≤ (n : Int) * m :=
        mul_nonneg (Int.ofNat_nonneg n) (Int.ofNat_nonneg m)
      have hn32 : (n : Int) < 2 ^ 32 := by
        by_contra hge
        have h32 : (2 : Int) ^ 32 ≤ n := by omega
        have : (2 : Int) ^ 32 * 2 ^ 32 ≤ n * n := by nlinarith
        omega
      omega
    obtain ⟨m1, m2, extra, m3, m4⟩ := markLoop_ok N n (by omega) (by omega) inner
      ((n : Int) * n)
      { i := n, sieve := sv, trace := tr ++ [.send n], arith := ar }
      (by omega) hlen (by omega) (by omega) hno
    simp only at m2 m3
    refine ⟨{ (markLoop N n inner ((n : Int) * n)
      { i := n, sieve := sv, trace := tr ++ [.send n], arith := ar }).frame with
        i := ((n + 1 : Nat) : Int),
        arith := (markLoop N n inner ((n : Int) * n)
          { i := n, sieve := sv, trace := tr ++ [.send n],
            arith := ar }).frame.arith ++ [.incr n] }, ?_, ?_⟩
    · refine ⟨rfl, ?_, ?_, ?_, ?_⟩
      · simp only [markLoop_length]; exact hlen
      · intro k
        simp only [m2 k, hmarked k, markedBy_succ_prime_sq hprime k]
        constructor
        · rintro (⟨hk, hm⟩ | ⟨hk, m, hm⟩)
          · exact ⟨hk, Or.inl hm⟩
          · exact ⟨hk, Or.inr ⟨m, by exact_mod_cast hm⟩⟩
        · rintro ⟨hk, hm | ⟨m, hm⟩⟩
          · exact Or.inl ⟨hk, hm⟩
          · exact Or.inr ⟨hk, m, by exact_mod_cast hm⟩
      · simp only [markLoop_trace, htrace, primesBelow_succ, if_pos hprime,
          List.map_append, List.map_cons, List.map_nil]
      · intro a ha
        simp only [m3, List.mem_append, List.mem_singleton] at ha
        rcases ha with (ha | ha) | rfl
        · exact harith a ha
        · obtain ⟨j0, rfl, h5, h6, h7⟩ := m4 a ha
          exact ⟨by omega, by omega, h6, h7⟩
        · exact ⟨by omega, c1⟩
    · intro fuel
      conv_lhs => unfold outerLoopSq
      simp only [if_pos c1, if_pos c2, htn, if_pos hs, hw1, m1]
  · have hcomp : ¬ n.Prime := by
      have hs1 : sv.getD n false = true := by simpa using hs
      exact markedBy_not_prime ((hmarked n).mp hs1).2
    refine ⟨{ i := ((n + 1 : Nat) : Int), sieve := sv, trace := tr,
              arith := ar ++ [.incr n] }, ?_, ?_⟩
    · refine ⟨rfl, hlen, ?_, ?_, ?_⟩
      · intro k
        simp only [hmarked k, markedBy_succ_composite hcomp k]
      · simp only [htrace, primesBelow_succ, if_neg hcomp, List.append_nil]
      · intro a ha
        simp only [List.mem_append, List.mem_singleton] at ha
        rcases ha with ha | rfl
        · exact harith a ha
        · exact ⟨by omega, c1⟩
    · intro fuel
      conv_lhs => unfold outerLoopSq
      simp only [if_pos c1, if_pos c2, htn, if_neg hs, hw1]

theorem outer_run_sq (N : Int) (hN : N + 2 ^ 32 ≤ 2 ^ 63) (inner : Nat) (hin : N ≤ inner)
    (fuel n : Nat) (hn2 : 2 ≤ n) (hnN : (n : Int) ≤ N) (hfuel : N - n < fuel) (f : Frame)
    (h : Inv N n f) :
    ∃ f1, Inv N N.toNat f1 ∧ outerLoopSq N inner fuel f = ⟨f1, none⟩ := by
  induction fuel generalizing n f with
  | zero => exfalso; simp at hfuel; omega
  | succ fuel ih =>
    by_cases hlt : (n : Int) < N
    · obtain ⟨f1, h1, e1⟩ := outer_step_sq N hN inner hin n hn2 hlt f h
      obtain ⟨f2, h2, e2⟩ := ih (n + 1) (by omega) (by push_cast; omega)
        (by push_cast at hfuel ⊢; omega) f1 h1
      exact ⟨f2, h2, by rw [e1 fuel, e2]⟩
    · have hnn : N.toNat = n := by omega
      refine ⟨f, hnn ▸ h, ?_⟩
      unfold outerLoopSq
      rw [if_neg (by rw [h.i_eq]; exact hlt)]

/-- Below 2 the loop body is never entered and the variant is the original. -/
theorem make_primes_sq_small (N : Int) (hN : N < 2) (fuel : Nat) :
    make_primes_sq fuel N = make_primes fuel N := by
  unfold make_primes_sq make_primes
  by_cases hw : wrap64 (N + 1) < 0 ∨ maxAlloc < wrap64 (N + 1)
  · rw [if_pos hw, if_pos hw]
  · rw [if_neg hw, if_neg hw]
    cases fuel with
    | zero => rfl
    | succ fuel =>
      have e1 : outerLoopSq N (fuel + 1) (fuel + 1) (initFrame N) = ⟨initFrame N, none⟩ := by
        unfold outerLoopSq
        rw [if_neg (by simp only [initFrame]; omega)]
      have e2 : outerLoop N (fuel + 1) (fuel + 1) (initFrame N) = ⟨initFrame N, none⟩ := by
        unfold outerLoop
        rw [if_neg (by simp only [initFrame]; omega)]
      rw [e1, e2]

/-- When the allocation panics, the variant and the original stop in the same
state. -/
theorem make_primes_sq_alloc_fail (N : Int) (fuel : Nat)
    (h : wrap64 (N + 1) < 0 ∨ maxAlloc < wrap64 (N + 1)) :
    make_primes_sq fuel N = make_primes fuel N := by
  unfold make_primes_sq make_primes
  rw [if_pos h, if_pos h]

/-- A run of the variant with a bound between 2 and `2 ^ 48 - 1` and enough
fuel: it reaches the end and has sent the primes below the bound. -/
theorem make_primes_sq_ok (N : Int) (h2 : 2 ≤ N) (hN : N < 2 ^ 48) (fuel : Nat)
    (hfuel : N ≤ fuel) :
    (make_primes_sq fuel N).halt = none ∧
    (make_primes_sq fuel N).frame.trace =
      (primesBelow N.toNat).map (fun p : Nat => Event.send (p : Int)) ++ [.close] := by
  have hw := alloc_ok N (by omega) hN
  obtain ⟨f1, hinv, e⟩ := outer_run_sq N (by omega) fuel hfuel fuel 2 (le_refl 2) h2 (by omega)
    (initFrame N) (inv_init N (by omega) (by omega))
  unfold make_primes_sq
  rw [if_neg hw]
  simp only [e]
  exact ⟨trivial, by rw [hinv.trace]⟩

/-! ## C11: starting the marking at the square -/

/-- C11: starting the marking at the square.  For every bound `N` (a 64-bit
value) and enough inner fuel: (1) in every state in which the outer loop of
`make_primes` stands at its head with `i` a prime below `N`, every multiple
`k * i` with `2 ≤ k < i` and `k * i < N` is already marked (for `N < 2 ^ 48`
that state is reached, after `i - 2` iterations); (2) the variant started at
`i * i` ends the same way as `make_primes` and performs the same sequence of
channel operations. -/
theorem C11_square_start (N : Int) (inner : Nat) (h63 : N < 2 ^ 63) (hin : N ≤ inner) :
    (∀ (i fuel : Nat) (f : Frame), i.Prime → (i : Int) < N →
      outerLoop N inner fuel (initFrame N) = ⟨f, some .outOfFuel⟩ → f.i = i →
      ∀ k : Nat, 2 ≤ k → k < i → ((k * i : Nat) : Int) < N →
        f.sieve.getD (k * i) false = true) ∧
    (N < 2 ^ 48 → ∀ i : Nat, i.Prime → (i : Int) < N → ∃ f : Frame,
      outerLoop N inner (i - 2) (initFrame N) = ⟨f, some .outOfFuel⟩ ∧ f.i = i) ∧
    (∀ fuel : Nat, N ≤ fuel → 0 < fuel →
      (make_primes_sq fuel N).halt = (make_primes fuel N).halt ∧
      (make_primes_sq fuel N).frame.trace = (make_primes fuel N).frame.trace) := by
  refine ⟨?_, ?_, ?_⟩
  · intro i fuel f hi hiN hrun hfi k hk2 hki hkN
    have hi2 := hi.two_le
    by_cases hN : N + 1 < 2 ^ 63
    · have hinit := inv_init N (by omega) hN
      rcases outer_run N hN inner hin fuel 2 (le_refl 2) (by omega) (initFrame N) hinit with
        ⟨_, _, hinv⟩ | ⟨hh, _, _⟩ | ⟨hh, _⟩
      · rw [hrun] at hinv
        have hj2 : 2 + fuel = i := by
          have := hinv.i_eq
          simp only at this
          omega
        rw [hj2] at hinv
        have hm := hinv.marked (k * i)
        simp only at hm
        exact hm.mpr ⟨hkN, markedBy_small_multiple hk2 hki⟩
      · rw [hrun] at hh; exact absurd hh (by simp)
      · rw [hrun] at hh; exact absurd hh (by simp)
    · exfalso
      have hneg : wrap64 (N + 1) < 0 := by unfold wrap64; omega
      have hlen : (initFrame N).sieve.length = 0 := by
        simp only [initFrame, List.length_replicate]
        omega
      cases fuel with
      | zero =>
        simp only [outerLoop, Result.mk.injEq, and_true] at hrun
        rw [← hrun] at hfi
        simp only [initFrame] at hfi
        omega
      | succ fuel =>
        unfold outerLoop at hrun
        rw [if_pos (by simp only [initFrame]; omega),
          if_neg (by rw [hlen]; simp [initFrame])] at hrun
        simp at hrun
  · intro h48 i hi hiN
    have hi2 := hi.two_le
    have hinit := inv_init N (by omega) (by omega)
    rcases outer_run N (by omega) inner hin (i - 2) 2 (le_refl 2) (by omega) (initFrame N)
      hinit with ⟨hh, _, hinv⟩ | ⟨_, hlt, _⟩ | ⟨_, hbig⟩
    · refine ⟨(outerLoop N inner (i - 2) (initFrame N)).frame, ?_, ?_⟩
      · rw [← hh]
      · have := hinv.i_eq
        omega
    · exfalso; omega
    · exfalso; omega
  · intro fuel hfuel hpos
    by_cases h2 : N < 2
    · rw [make_primes_sq_small N h2 fuel]
      exact ⟨rfl, rfl⟩
    · by_cases h48 : N < 2 ^ 48
      · obtain ⟨a1, a2, _⟩ := make_primes_ok N (by omega) h48 fuel hfuel hpos
        obtain ⟨b1, b2⟩ := make_primes_sq_ok N (by omega) h48 fuel hfuel
        exact ⟨by rw [a1, b1], by rw [a2, b2]⟩
      · rw [make_primes_sq_alloc_fail N fuel (alloc_fail N (by omega) h63 (Or.inr (by omega)))]
        exact ⟨rfl, rfl⟩

/-- Instance of C11 at bound 20. -/
theorem C11_witness :
    (∀ (i fuel : Nat) (f : Frame), i.Prime → (i : Int) < 20 →
      outerLoop 20 20 fuel (initFrame 20) = ⟨f, some .outOfFuel⟩ → f.i = i →
      ∀ k : Nat, 2 ≤ k → k < i → ((k * i : Nat) : Int) < 20 →
        f.sieve.getD (k * i) false = true) ∧
    ((20 : Int) < 2 ^ 48 → ∀ i : Nat, i.Prime → (i : Int) < 20 → ∃ f : Frame,
      outerLoop 20 20 (i - 2) (initFrame 20) = ⟨f, some .outOfFuel⟩ ∧ f.i = i) ∧
    (∀ fuel : Nat, (20 : Int) ≤ fuel → 0 < fuel →
      (make_primes_sq fuel 20).halt = (make_primes fuel 20).halt ∧
      (make_primes_sq fuel 20).frame.trace = (make_primes fuel 20).frame.trace) :=
  C11_square_start 20 20 (by decide) (by decide)

end P010
